import Mathlib

/-!
# Shallow embedding of the `slider` state-space graph generator

This file embeds the Rust sources of the `slider` repository
(`src/bidirectional_list.rs`, `src/game.rs`) as executable Lean
definitions and proves properties of the embedded program.

Conventions of the embedding:

* Rust `usize` values are modelled as `Nat`; the program never relies on
  wrap-around arithmetic on indices (saturation is irrelevant: every
  subtraction in the source is guarded by a positivity test, which the
  embedding reproduces).
* A Rust tuple field `.0` is the Lean `Prod` field `.1`, and `.1` is `.2`.
* Panics (failed `assert!`/`assert_eq!`, out-of-range `Vec` indexing,
  `Option::unwrap` on `None`) are modelled by `Option`: a function that can
  panic returns `none` exactly when the Rust original aborts the process.
* `Vec<usize>` used as a LIFO work list (`push`/`pop` at the end) is
  modelled as a `List Nat` whose *head* is the end of the `Vec`: `push` is
  `::` and `pop` takes the head.  Only the stack discipline and the length
  are observable, and both are preserved.
* `BTreeSet<(usize, usize)>` is modelled as `Finset (Nat × Nat)`: only
  membership and deduplication are observable in the program.
* `HashMap<T, usize>` is modelled as an association list consulted
  front-first; `insert` conses, which yields the same lookup semantics as
  the hash map's overwrite-on-insert.
-/

/-- `GoalSpecification` from `game.rs` (parsed but never evaluated). -/
inductive GoalSpecification where
  | position (p : Nat × Nat)
deriving DecidableEq, Repr

/-- `PieceSpecification` from `game.rs`: footprint size, initial position,
and (horizontal, vertical) move permissions. -/
structure PieceSpecification where
  size : Nat × Nat
  position : Nat × Nat
  moves : Bool × Bool
deriving DecidableEq, Repr

/-- `GameSpecification` from `game.rs`. -/
structure GameSpecification where
  dimensions : Nat × Nat
  pieces : List PieceSpecification
  goal : GoalSpecification
deriving DecidableEq, Repr

/-- `GameConfiguration` from `game.rs`: one position per piece, in
piece-list order. -/
structure GameConfiguration where
  positions : List (Nat × Nat)
deriving DecidableEq, Repr

/-- `GameBoard` from `game.rs`: row-major occupancy bitmap. -/
structure GameBoard where
  bitmap : List Bool
  width : Nat
  height : Nat
deriving DecidableEq, Repr

/-- Linear index of a cell `(x, y)` in the row-major bitmap, as computed by
the source expression `x + y * self.width`. -/
def cellIndex (width : Nat) (cell : Nat × Nat) : Nat :=
  cell.1 + cell.2 * width

/-- The list of absolute cells of a piece footprint of size `size` placed
at `position`, in the iteration order of the nested loops in
`GameBoard::place` (`x_` outer, `y_` inner). -/
def fpCellList (size position : Nat × Nat) : List (Nat × Nat) :=
  (List.range size.1).flatMap fun a =>
    (List.range size.2).map fun b => (a + position.1, b + position.2)

/-- One bitmap write `self.bitmap[i] = true`: panics (returns `none`) when
the index is out of range, exactly like Rust `Vec` indexed assignment. -/
def setCell (l : List Bool) (i : Nat) : Option (List Bool) :=
  if i < l.length then some (l.set i true) else none

/-- `GameBoard::new`. -/
def GameBoard.new (dimensions : Nat × Nat) : GameBoard :=
  { bitmap := List.replicate (dimensions.1 * dimensions.2) false
    width := dimensions.1
    height := dimensions.2 }

/-- `GameBoard::clear`: `self.bitmap.fill(false)` keeps the length. -/
def GameBoard.clear (b : GameBoard) : GameBoard :=
  { b with bitmap := List.replicate b.bitmap.length false }

/-- `GameBoard::place`: marks every cell of the footprint rectangle, with
no bounds checking; an out-of-range linear index aborts (`none`). -/
def GameBoard.place (b : GameBoard) (piece : PieceSpecification)
    (position : Nat × Nat) : Option GameBoard := do
  let bm ← (fpCellList piece.size position).foldlM
    (fun bm cell => setCell bm (cellIndex b.width cell)) b.bitmap
  pure { b with bitmap := bm }

/-- Inner loop of `GameBoard::is_rect_clear` for a fixed column `x`: reads
the cells `(x, y)` for `y ∈ ys` in order; `none` models an out-of-range
bitmap read, `some false` is the early `return false` on an occupied cell. -/
def checkCells (b : GameBoard) (x : Nat) : List Nat → Option Bool
  | [] => some true
  | y :: rest =>
    match b.bitmap.get? (cellIndex b.width (x, y)) with
    | none => none
    | some true => some false
    | some false => checkCells b x rest

/-- Outer loop of `GameBoard::is_rect_clear`: for each column `x` it first
runs `assert!(x < self.width)` (`none` on failure), then scans the rows. -/
def checkCols (b : GameBoard) (ys : List Nat) : List Nat → Option Bool
  | [] => some true
  | x :: rest =>
    if x < b.width then
      match checkCells b x ys with
      | none => none
      | some false => some false
      | some true => checkCols b ys rest
    else none

/-- `GameBoard::is_rect_clear`: `some true` iff every cell of the rectangle
at `position` of extent `size` is unoccupied; asserts each horizontal
coordinate against the width but never checks the vertical extent. -/
def GameBoard.is_rect_clear (b : GameBoard) (position size : Nat × Nat) :
    Option Bool :=
  checkCols b ((List.range size.2).map (· + position.2))
    ((List.range size.1).map (· + position.1))

/-- `GameSpecification::as_configuration`. -/
def GameSpecification.as_configuration (s : GameSpecification) :
    GameConfiguration :=
  ⟨s.pieces.map (·.position)⟩

/-! ## The interner (`bidirectional_list.rs`) -/

/-- Front-first association-list lookup; models `HashMap::get`. -/
def mapLookup {T : Type} [DecidableEq T] : List (T × Nat) → T → Option Nat
  | [], _ => none
  | (k, v) :: rest, key => if key = k then some v else mapLookup rest key

/-- `BidirectionalList<T>`: an append-only value store plus a reverse map.
The leaked `&'static` references of the source are value copies here. -/
structure BidirectionalList (T : Type) [DecidableEq T] where
  index : List T
  inverse_index : List (T × Nat)

instance {T : Type} [DecidableEq T] : DecidableEq (BidirectionalList T) :=
  fun a b =>
    decidable_of_iff
      (a.index = b.index ∧ a.inverse_index = b.inverse_index)
      (by cases a; cases b; simp)

/-- `BidirectionalList::default()`. -/
def BidirectionalList.emptyList {T : Type} [DecidableEq T] :
    BidirectionalList T :=
  ⟨[], []⟩

/-- `BidirectionalList::push`: unconditionally appends and returns the id
(the length before the call); `HashMap::insert` is the front cons. -/
def BidirectionalList.push {T : Type} [DecidableEq T]
    (l : BidirectionalList T) (value : T) : Nat × BidirectionalList T :=
  (l.index.length,
   ⟨l.index ++ [value], (value, l.index.length) :: l.inverse_index⟩)

/-- `BidirectionalList::get`. -/
def BidirectionalList.get {T : Type} [DecidableEq T]
    (l : BidirectionalList T) (idx : Nat) : Option T :=
  l.index.get? idx

/-- `BidirectionalList::get_index`. -/
def BidirectionalList.get_index {T : Type} [DecidableEq T]
    (l : BidirectionalList T) (value : T) : Option Nat :=
  mapLookup l.inverse_index value

/-- `BidirectionalList::len`. -/
def BidirectionalList.len {T : Type} [DecidableEq T]
    (l : BidirectionalList T) : Nat :=
  l.index.length

/-! ## The graph generator (`game.rs`) -/

/-- `GraphGenerator` state: interner, canonicalized edge set, LIFO work
list (head = top), scratch board, and the immutable specification. -/
structure GraphGenerator where
  nodes : BidirectionalList GameConfiguration
  edges : Finset (Nat × Nat)
  queue : List Nat
  board : GameBoard
  specification : GameSpecification

/-- `GraphGenerator::new`. -/
def GraphGenerator.new (specification : GameSpecification) : GraphGenerator :=
  let board := GameBoard.new specification.dimensions
  let p := BidirectionalList.emptyList.push specification.as_configuration
  { specification := specification
    nodes := p.2
    edges := ∅
    queue := [p.1]
    board := board }

/-- `GraphGenerator::enqueue_configuration`: look the candidate up, push it
(and queue its fresh id) only on a miss, then record the canonicalized
edge to `neighbor` unconditionally. -/
def GraphGenerator.enqueue_configuration
    (nodes : BidirectionalList GameConfiguration) (queue : List Nat)
    (edges : Finset (Nat × Nat)) (configuration : GameConfiguration)
    (neighbor : Nat) :
    BidirectionalList GameConfiguration × List Nat × Finset (Nat × Nat) :=
  match nodes.get_index configuration with
  | some idx => (nodes, queue, insert (min idx neighbor, max idx neighbor) edges)
  | none =>
    let p := nodes.push configuration
    (p.2, p.1 :: queue, insert (min p.1 neighbor, max p.1 neighbor) edges)

/-- The four slide directions of the move generator. -/
inductive Dir where
  | left
  | right
  | up
  | down
deriving DecidableEq, Repr

/-- One direction branch of `GraphGenerator::visit_node`: if the guard
holds, probe the entered strip with `is_rect_clear` (propagating its
panics) and emit the shifted candidate on `some true`.  The emitted entry
is annotated with the piece index and direction that produced it; the
fold in `visit_node` uses only the configuration component. -/
def dirAttempt (board : GameBoard) (configuration : GameConfiguration)
    (piece_idx : Nat) (guard : Prop) [Decidable guard]
    (probePos probeSize newPos : Nat × Nat) (d : Dir) :
    Option (List (Nat × Dir × GameConfiguration)) :=
  if guard then
    match board.is_rect_clear probePos probeSize with
    | none => none
    | some true =>
      some [(piece_idx, d, ⟨configuration.positions.set piece_idx newPos⟩)]
    | some false => some []
  else some []

/-- The horizontal block of the per-piece move loop: when the horizontal
flag is set, try left then right, propagating probe panics. -/
def horiz_moves (board : GameBoard) (configuration : GameConfiguration)
    (piece_idx : Nat) (piece : PieceSpecification) (position : Nat × Nat) :
    Option (List (Nat × Dir × GameConfiguration)) :=
  if piece.moves.1 then
    dirAttempt board configuration piece_idx (0 < position.1)
        (position.1 - 1, position.2) (1, piece.size.2)
        (position.1 - 1, position.2) .left >>= fun ml =>
      dirAttempt board configuration piece_idx
          (position.1 + piece.size.1 < board.width)
          (position.1 + piece.size.1, position.2) (1, piece.size.2)
          (position.1 + 1, position.2) .right >>= fun mr =>
        some (ml ++ mr)
  else some []

/-- The vertical block of the per-piece move loop: when the vertical flag
is set, try up then down, propagating probe panics. -/
def vert_moves (board : GameBoard) (configuration : GameConfiguration)
    (piece_idx : Nat) (piece : PieceSpecification) (position : Nat × Nat) :
    Option (List (Nat × Dir × GameConfiguration)) :=
  if piece.moves.2 then
    dirAttempt board configuration piece_idx (0 < position.2)
        (position.1, position.2 - 1) (piece.size.1, 1)
        (position.1, position.2 - 1) .up >>= fun mu =>
      dirAttempt board configuration piece_idx
          (position.2 + piece.size.2 < board.height)
          (position.1, position.2 + piece.size.2) (piece.size.1, 1)
          (position.1, position.2 + 1) .down >>= fun md =>
        some (mu ++ md)
  else some []

/-- The per-piece body of the move loop in `GraphGenerator::visit_node`:
looks up the piece and its current position (panicking on an out-of-range
index, as the Rust indexing does) and tries left/right when horizontal
moves are allowed and up/down when vertical moves are allowed. -/
def piece_moves (spec : GameSpecification) (board : GameBoard)
    (configuration : GameConfiguration) (piece_idx : Nat) :
    Option (List (Nat × Dir × GameConfiguration)) :=
  match spec.pieces.get? piece_idx, configuration.positions.get? piece_idx with
  | some piece, some position =>
    horiz_moves board configuration piece_idx piece position >>= fun h =>
      vert_moves board configuration piece_idx piece position >>= fun v =>
        some (h ++ v)
  | _, _ => none

/-- The whole move loop of `visit_node`, concatenating the candidate lists
of all pieces in order. -/
def all_moves (spec : GameSpecification) (board : GameBoard)
    (configuration : GameConfiguration) :
    Option (List (Nat × Dir × GameConfiguration)) :=
  (List.range spec.pieces.length).foldlM
    (fun acc i => do pure (acc ++ (← piece_moves spec board configuration i)))
    []

/-- The read-only prefix of `GraphGenerator::visit_node` on one
configuration: clear the scratch board, place every piece (panicking on an
out-of-range write), run `assert_eq!(18, occupied-cell count)`, then
compute the candidate list.  The source interleaves candidate generation
with enqueueing; the two phases commute because the board is not written
and the interner/queue/edge set are not read during candidate generation,
so the embedding separates them. -/
def visit_try (spec : GameSpecification) (board : GameBoard)
    (configuration : GameConfiguration) :
    Option (List (Nat × Dir × GameConfiguration)) := do
  let b ← (spec.pieces.zip configuration.positions).foldlM
    (fun bb pc => bb.place pc.1 pc.2) board.clear
  if b.bitmap.count true = 18 then all_moves spec b configuration else none

/-- `GraphGenerator::visit_node`: materialize the configuration of `idx`
(`unwrap` panics on a dangling id), compute the candidates, and fold
`enqueue_configuration` over them.  The scratch board's contents after the
visit are never read (it is cleared first on the next visit), so the
post-visit bitmap is not tracked. -/
def GraphGenerator.visit_node (g : GraphGenerator) (idx : Nat) :
    Option GraphGenerator :=
  g.nodes.get idx >>= fun configuration =>
    visit_try g.specification g.board configuration >>= fun moves =>
      let s := moves.foldl
        (fun s m =>
          GraphGenerator.enqueue_configuration s.1 s.2.1 s.2.2 m.2.2 idx)
        (g.nodes, g.queue, g.edges)
      some { g with nodes := s.1, queue := s.2.1, edges := s.2.2 }

/-- Result of `GraphGenerator::generate`.  The Rust return type is
`Result<(&BidirectionalList<_>, &BTreeSet<_>)>`, whose error variant is
`err` here; `panicked` models a process abort; `outOfFuel` is the
artificial exhaustion of the step budget of the embedding. -/
inductive GenResult where
  | ok (nodes : BidirectionalList GameConfiguration)
      (edges : Finset (Nat × Nat))
  | panicked
  | err
  | outOfFuel
deriving DecidableEq

/-- The `while !self.queue.is_empty()` loop of `GraphGenerator::generate`:
pop the last work-list entry and visit it.  The progress `eprintln!` is a
diagnostic side channel with no bearing on the state and is omitted. -/
def generate_loop : Nat → GraphGenerator → GenResult
  | 0, g => match g.queue with
    | [] => .ok g.nodes g.edges
    | _ :: _ => .outOfFuel
  | fuel + 1, g => match g.queue with
    | [] => .ok g.nodes g.edges
    | idx :: rest =>
      match GraphGenerator.visit_node { g with queue := rest } idx with
      | none => .panicked
      | some g' => generate_loop fuel g'

/-! ## Specification-side notions

These definitions follow the wording of the natural-language specification
(board bounds, footprint overlap, slide legality) and are compared with the
code-side definitions above by the theorems below. -/

/-- A cell is covered by a footprint of size `size` at `position`. -/
def fpCovers (size position cell : Nat × Nat) : Prop :=
  position.1 ≤ cell.1 ∧ cell.1 < position.1 + size.1 ∧
  position.2 ≤ cell.2 ∧ cell.2 < position.2 + size.2

instance (size position cell : Nat × Nat) :
    Decidable (fpCovers size position cell) :=
  inferInstanceAs (Decidable (_ ∧ _ ∧ _ ∧ _))

/-- The footprint cells of piece `i` in configuration `c` (empty when the
index is out of range). -/
def pieceFoot (spec : GameSpecification) (c : GameConfiguration) (i : Nat) :
    List (Nat × Nat) :=
  match spec.pieces.get? i, c.positions.get? i with
  | some piece, some pos => fpCellList piece.size pos
  | _, _ => []

/-- A cell is occupied by some piece of configuration `c`. -/
def OccupiedIn (spec : GameSpecification) (c : GameConfiguration)
    (cell : Nat × Nat) : Prop :=
  ∃ i ∈ List.range spec.pieces.length, cell ∈ pieceFoot spec c i

instance (spec : GameSpecification) (c : GameConfiguration)
    (cell : Nat × Nat) : Decidable (OccupiedIn spec c cell) :=
  inferInstanceAs (Decidable (∃ i ∈ List.range spec.pieces.length,
    cell ∈ pieceFoot spec c i))

/-- Every piece of configuration `c` lies within the board. -/
def InBounds (spec : GameSpecification) (c : GameConfiguration) : Prop :=
  c.positions.length = spec.pieces.length ∧
  ∀ pp ∈ spec.pieces.zip c.positions,
    pp.2.1 + pp.1.size.1 ≤ spec.dimensions.1 ∧
    pp.2.2 + pp.1.size.2 ≤ spec.dimensions.2

instance (spec : GameSpecification) (c : GameConfiguration) :
    Decidable (InBounds spec c) :=
  inferInstanceAs (Decidable (_ ∧ ∀ pp ∈ spec.pieces.zip c.positions,
    _ ∧ _))

/-- No two distinct pieces of configuration `c` share a cell. -/
def NonOverlap (spec : GameSpecification) (c : GameConfiguration) : Prop :=
  ∀ i ∈ List.range spec.pieces.length, ∀ j ∈ List.range spec.pieces.length,
    i ≠ j → ∀ cell ∈ pieceFoot spec c i, cell ∉ pieceFoot spec c j

instance (spec : GameSpecification) (c : GameConfiguration) :
    Decidable (NonOverlap spec c) :=
  inferInstanceAs (Decidable (∀ i ∈ List.range spec.pieces.length,
    ∀ j ∈ List.range spec.pieces.length, i ≠ j →
    ∀ cell ∈ pieceFoot spec c i, cell ∉ pieceFoot spec c j))

/-- Sum of the piece footprint areas of the specification. -/
def totalArea (spec : GameSpecification) : Nat :=
  (spec.pieces.map (fun p => p.size.1 * p.size.2)).sum

/-- A well-formed specification: the initial configuration is in bounds
and non-overlapping. -/
def WFSpec (spec : GameSpecification) : Prop :=
  InBounds spec spec.as_configuration ∧
  NonOverlap spec spec.as_configuration

instance (spec : GameSpecification) : Decidable (WFSpec spec) :=
  inferInstanceAs (Decidable (_ ∧ _))

/-- The destination of a one-cell slide in direction `d`. -/
def dirShiftPos : Dir → Nat × Nat → Nat × Nat
  | .left, p => (p.1 - 1, p.2)
  | .right, p => (p.1 + 1, p.2)
  | .up, p => (p.1, p.2 - 1)
  | .down, p => (p.1, p.2 + 1)

/-- Modelled from the spec, per direction: the piece's flag for the axis
of `d` is set, the shifted piece stays within the board bounds, and the
one-cell strip of newly entered cells is unoccupied in the occupancy built
from `c`. -/
def dirLegal (spec : GameSpecification) (c : GameConfiguration)
    (piece : PieceSpecification) (position : Nat × Nat) : Dir → Prop
  | .left =>
    piece.moves.1 = true ∧ 0 < position.1 ∧
    position.1 - 1 + piece.size.1 ≤ spec.dimensions.1 ∧
    position.2 + piece.size.2 ≤ spec.dimensions.2 ∧
    ∀ cell ∈ fpCellList (1, piece.size.2) (position.1 - 1, position.2),
      ¬ OccupiedIn spec c cell
  | .right =>
    piece.moves.1 = true ∧
    position.1 + 1 + piece.size.1 ≤ spec.dimensions.1 ∧
    position.2 + piece.size.2 ≤ spec.dimensions.2 ∧
    ∀ cell ∈ fpCellList (1, piece.size.2)
        (position.1 + piece.size.1, position.2),
      ¬ OccupiedIn spec c cell
  | .up =>
    piece.moves.2 = true ∧ 0 < position.2 ∧
    position.1 + piece.size.1 ≤ spec.dimensions.1 ∧
    position.2 - 1 + piece.size.2 ≤ spec.dimensions.2 ∧
    ∀ cell ∈ fpCellList (piece.size.1, 1) (position.1, position.2 - 1),
      ¬ OccupiedIn spec c cell
  | .down =>
    piece.moves.2 = true ∧
    position.1 + piece.size.1 ≤ spec.dimensions.1 ∧
    position.2 + 1 + piece.size.2 ≤ spec.dimensions.2 ∧
    ∀ cell ∈ fpCellList (piece.size.1, 1)
        (position.1, position.2 + piece.size.2),
      ¬ OccupiedIn spec c cell

instance (spec : GameSpecification) (c : GameConfiguration)
    (piece : PieceSpecification) (position : Nat × Nat) (d : Dir) :
    Decidable (dirLegal spec c piece position d) :=
  match d with
  | .left => inferInstanceAs (Decidable (_ ∧ _ ∧ _ ∧ _ ∧ _))
  | .right => inferInstanceAs (Decidable (_ ∧ _ ∧ _ ∧ _))
  | .up => inferInstanceAs (Decidable (_ ∧ _ ∧ _ ∧ _ ∧ _))
  | .down => inferInstanceAs (Decidable (_ ∧ _ ∧ _ ∧ _))

/-- Modelled from the spec: a direction `d` of piece `i` is legal in
configuration `c` (see `dirLegal`). -/
def SpecLegal (spec : GameSpecification) (c : GameConfiguration) (i : Nat)
    (d : Dir) : Prop :=
  ∃ piece ∈ (spec.pieces.get? i).toList,
    ∃ position ∈ (c.positions.get? i).toList,
      dirLegal spec c piece position d

instance (spec : GameSpecification) (c : GameConfiguration) (i : Nat)
    (d : Dir) : Decidable (SpecLegal spec c i d) :=
  inferInstanceAs (Decidable (∃ piece ∈ (spec.pieces.get? i).toList,
    ∃ position ∈ (c.positions.get? i).toList,
      dirLegal spec c piece position d))

/-- The candidate configuration for a slide of piece `i` in direction `d`. -/
def shiftConfig (c : GameConfiguration) (i : Nat) (d : Dir) :
    GameConfiguration :=
  ⟨c.positions.set i (dirShiftPos d (c.positions.getD i (0, 0)))⟩

/-- Code-side move availability: building the board from `c` and running
the move generator (without the occupancy assertion) yields the annotated
candidate `(i, d, c')`. -/
def buildBoard (spec : GameSpecification) (c : GameConfiguration) :
    Option GameBoard :=
  (spec.pieces.zip c.positions).foldlM
    (fun bb pc => bb.place pc.1 pc.2) (GameBoard.new spec.dimensions)

/-- The move generator on `c`, run on a freshly built board. -/
def node_moves (spec : GameSpecification) (c : GameConfiguration) :
    Option (List (Nat × Dir × GameConfiguration)) := do
  let b ← buildBoard spec c
  all_moves spec b c

/-- `visit_try` on a freshly built board (what `visit_node` runs under the
board-dimension invariant): includes the occupancy assertion. -/
def visit_ok (spec : GameSpecification) (c : GameConfiguration) :
    Option (List (Nat × Dir × GameConfiguration)) := do
  let b ← buildBoard spec c
  if b.bitmap.count true = 18 then all_moves spec b c else none

/-- One legal single-piece one-cell slide of the move generator, from `c`
to `c'`, by piece `i` in direction `d`. -/
def MoveRel (spec : GameSpecification) (c : GameConfiguration) (i : Nat)
    (d : Dir) (c' : GameConfiguration) : Prop :=
  ∃ l, node_moves spec c = some l ∧ (i, d, c') ∈ l

/-- The one-step slide relation generated by the code's move generator. -/
def Step (spec : GameSpecification) (c c' : GameConfiguration) : Prop :=
  ∃ i d, MoveRel spec c i d c'

/-- Modelled from the spec: the one-step relation of legal slides. -/
def SpecStep (spec : GameSpecification) (c c' : GameConfiguration) : Prop :=
  ∃ i d, SpecLegal spec c i d ∧ c' = shiftConfig c i d

/-- Configurations reachable from the initial configuration by legal
slides, as worded in the spec. -/
def SpecReachable (spec : GameSpecification) (c : GameConfiguration) : Prop :=
  Relation.ReflTransGen (SpecStep spec) spec.as_configuration c

/-- Generator states reachable from `GraphGenerator::new` by whole loop
iterations of `generate` (pop one id, visit it successfully). -/
inductive GenReach (spec : GameSpecification) : GraphGenerator → Prop where
  | init : GenReach spec (GraphGenerator.new spec)
  | step : ∀ g idx rest g', GenReach spec g → g.queue = idx :: rest →
      GraphGenerator.visit_node { g with queue := rest } idx = some g' →
      GenReach spec g'

/-! ## Concrete specifications used by witnesses and counterexamples -/

/-- Scenario A of the spec: 1×1 board, one fixed 1×1 piece. -/
def scenarioA : GameSpecification :=
  { dimensions := (1, 1)
    pieces := [{ size := (1, 1), position := (0, 0), moves := (false, false) }]
    goal := .position (0, 0) }

/-- Scenario B of the spec: 3×1 board, one horizontally sliding 1×1 piece
at `x = 0`. -/
def scenarioB : GameSpecification :=
  { dimensions := (3, 1)
    pieces := [{ size := (1, 1), position := (0, 0), moves := (true, false) }]
    goal := .position (2, 0) }

/-- A well-formed puzzle of total area 18 that passes the hard-coded
occupancy assertion: a 19×1 corridor with one 18×1 sliding piece; its
reachable graph is two nodes joined by one edge. -/
def corridorSpec : GameSpecification :=
  { dimensions := (19, 1)
    pieces := [{ size := (18, 1), position := (0, 0), moves := (true, false) }]
    goal := .position (1, 0) }

/-! ## Interner well-formedness -/

/-- The interner invariant maintained by the lookup-then-insert-on-miss
discipline: the reverse map sends exactly the stored values to the indices
where they are stored. -/
def BidirectionalList.WFb {T : Type} [DecidableEq T]
    (l : BidirectionalList T) : Prop :=
  ∀ v i, mapLookup l.inverse_index v = some i ↔ l.index.get? i = some v

/-- The lookup-then-insert-on-miss interning operation, as used by
`enqueue_configuration`. -/
def internOf {T : Type} [DecidableEq T] (l : BidirectionalList T) (v : T) :
    Nat × BidirectionalList T :=
  match l.get_index v with
  | some i => (i, l)
  | none => l.push v

theorem emptyList_WFb {T : Type} [DecidableEq T] :
    (BidirectionalList.emptyList (T := T)).WFb := by
  intro v i
  simp [BidirectionalList.emptyList, mapLookup]

theorem BidirectionalList.WFb.get_ne_of_miss {T : Type} [DecidableEq T]
    {l : BidirectionalList T} (hwf : l.WFb) {v : T}
    (hmiss : l.get_index v = none) : ∀ i, l.index.get? i ≠ some v := by
  intro i hi
  have := (hwf v i).mpr hi
  rw [BidirectionalList.get_index] at hmiss
  simp [hmiss] at this

theorem BidirectionalList.WFb.push_of_miss {T : Type} [DecidableEq T]
    {l : BidirectionalList T} (hwf : l.WFb) {v : T}
    (hmiss : l.get_index v = none) : (l.push v).2.WFb := by
  intro v' i
  simp only [BidirectionalList.push, mapLookup]
  by_cases hv : v' = v
  · subst hv
    constructor
    · intro h
      simp only [if_pos rfl] at h
      cases h
      simp
    · intro h
      rcases Nat.lt_trichotomy i l.index.length with hlt | heq | hgt
      · rw [List.get?_eq_getElem?, List.getElem?_append_left hlt,
          ← List.get?_eq_getElem?] at h
        exact absurd h (hwf.get_ne_of_miss hmiss i)
      · simp [heq]
      · rw [List.get?_eq_getElem?, List.getElem?_append_right
          (Nat.le_of_lt hgt)] at h
        have : i - l.index.length ≥ 1 := by omega
        simp [List.getElem?_cons, if_neg (by omega : ¬ i - l.index.length = 0)]
          at h
  · rw [if_neg hv]
    rw [hwf v' i]
    constructor
    · intro h
      have hi : i < l.index.length := by
        by_contra hge
        rw [List.get?_eq_getElem?, List.getElem?_eq_none (by omega)] at h
        cases h
      rw [List.get?_eq_getElem?, List.getElem?_append_left hi,
        ← List.get?_eq_getElem?]
      exact h
    · intro h
      rcases Nat.lt_trichotomy i l.index.length with hlt | heq | hgt
      · rwa [List.get?_eq_getElem?, List.getElem?_append_left hlt,
          ← List.get?_eq_getElem?] at h
      · subst heq
        rw [List.get?_eq_getElem?, List.getElem?_append_right (Nat.le_refl _)]
          at h
        simp at h
        exact absurd h.symm hv
      · rw [List.get?_eq_getElem?, List.getElem?_append_right
          (Nat.le_of_lt hgt)] at h
        simp [List.getElem?_cons, if_neg (by omega : ¬ i - l.index.length = 0)]
          at h

theorem BidirectionalList.WFb.get_index_push_stable {T : Type} [DecidableEq T]
    {l : BidirectionalList T} {v w : T} {i : Nat}
    (hmiss : l.get_index w = none)
    (h : l.get_index v = some i) : (l.push w).2.get_index v = some i := by
  have hvw : v ≠ w := by
    intro he; subst he; rw [h] at hmiss; cases hmiss
  simpa [BidirectionalList.push, BidirectionalList.get_index, mapLookup,
    if_neg hvw] using h

theorem BidirectionalList.WFb.nodup_index {T : Type} [DecidableEq T]
    {l : BidirectionalList T} (hwf : l.WFb) : l.index.Nodup := by
  rw [List.nodup_iff_getElem?_ne_getElem?]
  intro i j hij hjlen
  intro hcon
  rcases h : l.index[j]? with _ | v
  · rw [List.getElem?_eq_none_iff] at h; omega
  · rw [h] at hcon
    have h1 : mapLookup l.inverse_index v = some i := by
      rw [hwf]; rw [List.get?_eq_getElem?]; exact hcon
    have h2 : mapLookup l.inverse_index v = some j := by
      rw [hwf]; rw [List.get?_eq_getElem?]; exact h
    rw [h1] at h2
    cases h2
    omega

theorem BidirectionalList.WFb.index_lt_len {T : Type} [DecidableEq T]
    {l : BidirectionalList T} {v : T} {i : Nat}
    (h : l.index.get? i = some v) : i < l.index.length := by
  by_contra hge
  rw [List.get?_eq_getElem?, List.getElem?_eq_none (by omega)] at h
  cases h

theorem BidirectionalList.get_def {T : Type} [DecidableEq T]
    (l : BidirectionalList T) (idx : Nat) : l.get idx = l.index.get? idx :=
  rfl

theorem BidirectionalList.get_index_def {T : Type} [DecidableEq T]
    (l : BidirectionalList T) (v : T) :
    l.get_index v = mapLookup l.inverse_index v :=
  rfl

/-- C9 helper: the defining equations of `internOf` in terms of the result. -/
theorem internOf_spec {T : Type} [DecidableEq T] (l : BidirectionalList T)
    (v : T) (hwf : l.WFb) :
    (internOf l v).2.WFb ∧
    (internOf l v).2.get_index v = some (internOf l v).1 ∧
    (internOf l v).2.get (internOf l v).1 = some v ∧
    internOf (internOf l v).2 v = internOf l v := by
  rcases hl : l.get_index v with _ | i
  · have hwf' := hwf.push_of_miss hl
    have hidx : (l.push v).2.get_index v = some (l.push v).1 := by
      simp [BidirectionalList.push, BidirectionalList.get_index, mapLookup]
    have he : internOf l v = l.push v := by simp [internOf, hl]
    rw [he]
    refine ⟨hwf', hidx, ?_, ?_⟩
    · rw [BidirectionalList.get_def, ← hwf' v (l.push v).1,
        ← BidirectionalList.get_index_def]
      exact hidx
    · simp [internOf, hidx]
  · have hget : l.get i = some v := by
      rw [BidirectionalList.get_def, ← hwf v i,
        ← BidirectionalList.get_index_def]
      exact hl
    have he : internOf l v = (i, l) := by simp [internOf, hl]
    rw [he]
    exact ⟨hwf, hl, hget, by simp [internOf, hl]⟩

/-- C9: the interner contract: `push` unconditionally appends, returning
the pre-call length and growing the store by one; under the
lookup-then-insert-on-miss discipline an interned value's id is stable in
both directions and re-interning is the identity. -/
theorem C9_interner_contract {T : Type} [DecidableEq T]
    (l : BidirectionalList T) (v : T) (hwf : l.WFb) :
    ((l.push v).1 = l.len ∧ (l.push v).2.len = l.len + 1) ∧
    ((internOf l v).2.WFb ∧
     (internOf l v).2.get_index v = some (internOf l v).1 ∧
     (internOf l v).2.get (internOf l v).1 = some v ∧
     internOf (internOf l v).2 v = internOf l v) :=
  ⟨⟨rfl, by simp [BidirectionalList.push, BidirectionalList.len]⟩,
   internOf_spec l v hwf⟩

/-- Witness for C9 at the empty interner and the value `7`. -/
theorem C9_interner_contract_witness :
    ((((BidirectionalList.emptyList (T := Nat)).push 7).1 =
        (BidirectionalList.emptyList (T := Nat)).len ∧
      (((BidirectionalList.emptyList (T := Nat)).push 7).2).len =
        (BidirectionalList.emptyList (T := Nat)).len + 1) ∧
     ((internOf (BidirectionalList.emptyList (T := Nat)) 7).2.WFb ∧
      (internOf (BidirectionalList.emptyList (T := Nat)) 7).2.get_index 7 =
        some (internOf (BidirectionalList.emptyList (T := Nat)) 7).1 ∧
      (internOf (BidirectionalList.emptyList (T := Nat)) 7).2.get
        (internOf (BidirectionalList.emptyList (T := Nat)) 7).1 = some 7 ∧
      internOf (internOf (BidirectionalList.emptyList (T := Nat)) 7).2 7 =
        internOf (BidirectionalList.emptyList (T := Nat)) 7)) :=
  C9_interner_contract BidirectionalList.emptyList 7 emptyList_WFb

/-! ## Semantics of `GameBoard::place` -/

theorem setCell_none_iff (l : List Bool) (i : Nat) :
    setCell l i = none ↔ l.length ≤ i := by
  by_cases h : i < l.length <;> simp [setCell, h] <;> omega

theorem setCell_some {l l' : List Bool} {i : Nat}
    (h : setCell l i = some l') : l' = l.set i true ∧ i < l.length := by
  by_cases hi : i < l.length
  · simp [setCell, hi] at h
    exact ⟨h.symm, hi⟩
  · simp [setCell, hi] at h

theorem placeFold_none_iff (w : Nat) (cells : List (Nat × Nat))
    (bm : List Bool) :
    (cells.foldlM (fun bm cell => setCell bm (cellIndex w cell)) bm = none) ↔
    ∃ cell ∈ cells, bm.length ≤ cellIndex w cell := by
  induction cells generalizing bm with
  | nil => simp
  | cons c rest ih =>
    rw [List.foldlM_cons]
    rcases hs : setCell bm (cellIndex w c) with _ | bm'
    · rw [setCell_none_iff] at hs
      simp only [Option.bind_eq_bind, Option.none_bind]
      constructor
      · intro _; exact ⟨c, List.mem_cons_self c rest, hs⟩
      · intro _; trivial
    · obtain ⟨rfl, hlt⟩ := setCell_some hs
      simp only [Option.bind_eq_bind, Option.some_bind]
      rw [ih]
      simp only [List.length_set]
      constructor
      · rintro ⟨cell, hm, hb⟩
        exact ⟨cell, List.mem_cons_of_mem c hm, hb⟩
      · rintro ⟨cell, hm, hb⟩
        rcases List.mem_cons.mp hm with rfl | hm'
        · omega
        · exact ⟨cell, hm', hb⟩

theorem placeFold_some_get (w : Nat) (cells : List (Nat × Nat))
    (bm bm' : List Bool)
    (h : cells.foldlM (fun bm cell => setCell bm (cellIndex w cell)) bm =
      some bm') :
    bm'.length = bm.length ∧
    ∀ j, bm'.get? j = (bm.get? j).map
      (fun old => old || cells.any fun cell => cellIndex w cell == j) := by
  induction cells generalizing bm with
  | nil =>
    cases h
    refine ⟨rfl, fun j => ?_⟩
    rcases bm'.get? j with _ | b <;> simp
  | cons c rest ih =>
    rw [List.foldlM_cons] at h
    rcases hs : setCell bm (cellIndex w c) with _ | bm₁ <;> rw [hs] at h
    · simp at h
    · obtain ⟨rfl, hlt⟩ := setCell_some hs
      simp only [Option.bind_eq_bind, Option.some_bind] at h
      obtain ⟨hlen, hget⟩ := ih _ h
      refine ⟨by simpa using hlen, fun j => ?_⟩
      rw [hget j]
      by_cases hj : cellIndex w c = j
      · subst hj
        rw [List.get?_set_eq_of_lt _ hlt]
        rcases hb : bm.get? (cellIndex w c) with _ | old
        · rw [List.get?_eq_getElem?, List.getElem?_eq_none_iff] at hb
          omega
        · simp
      · rw [List.get?_set_ne _ _ hj]
        rcases bm.get? j with _ | old
        · simp
        · simp only [Option.map_some, Option.some.injEq, List.any_cons]
          have : (cellIndex w c == j) = false := by
            simpa using hj
          rw [this]
          simp

theorem mem_fpCellList {size pos cell : Nat × Nat} :
    cell ∈ fpCellList size pos ↔ fpCovers size pos cell := by
  simp only [fpCellList, List.mem_flatMap, List.mem_map, List.mem_range]
  constructor
  · rintro ⟨a, ha, b, hb, rfl⟩
    exact ⟨by omega, by omega, by omega, by omega⟩
  · rintro ⟨h1, h2, h3, h4⟩
    refine ⟨cell.1 - pos.1, by omega, cell.2 - pos.2, by omega, ?_⟩
    obtain ⟨x, y⟩ := cell
    simp only [Prod.mk.injEq]
    omega

theorem cellIndex_inj {w : Nat} {c d : Nat × Nat} (hc : c.1 < w)
    (hd : d.1 < w) (h : cellIndex w c = cellIndex w d) : c = d := by
  obtain ⟨x, y⟩ := c
  obtain ⟨x', y'⟩ := d
  simp only [cellIndex] at h
  have hx : x = x' := by
    have h1 : (x + y * w) % w = x := by
      rw [Nat.add_mul_mod_self_right, Nat.mod_eq_of_lt hc]
    have h2 : (x' + y' * w) % w = x' := by
      rw [Nat.add_mul_mod_self_right, Nat.mod_eq_of_lt hd]
    rw [h] at h1
    rw [h1] at h2
    exact h2
  subst hx
  have hy : y * w = y' * w := by omega
  have hw : 0 < w := by omega
  have : y = y' := Nat.eq_of_mul_eq_mul_right hw hy
  simp [this]

theorem cellIndex_lt {w h : Nat} {c : Nat × Nat} (hc : c.1 < w)
    (hh : c.2 < h) : cellIndex w c < w * h := by
  obtain ⟨x, y⟩ := c
  simp only [cellIndex]
  calc x + y * w < w + y * w := by omega
  _ = (y + 1) * w := by ring
  _ ≤ h * w := Nat.mul_le_mul_right w (by omega)
  _ = w * h := Nat.mul_comm h w

/-- C6 (amended): on a fresh board, `place` aborts exactly when some
footprint cell's linear index falls outside the bitmap, and when the
footprint lies within the board it succeeds and marks exactly the
footprint cells. -/
theorem C6_place_spec (wd ht : Nat) (piece : PieceSpecification)
    (pos : Nat × Nat) :
    ((GameBoard.new (wd, ht)).place piece pos = none ↔
      ∃ cell ∈ fpCellList piece.size pos, wd * ht ≤ cellIndex wd cell) ∧
    (pos.1 + piece.size.1 ≤ wd → pos.2 + piece.size.2 ≤ ht →
      ∃ b', (GameBoard.new (wd, ht)).place piece pos = some b' ∧
        b'.width = wd ∧ b'.height = ht ∧ b'.bitmap.length = wd * ht ∧
        ∀ x y, x < wd → y < ht →
          b'.bitmap.get? (cellIndex wd (x, y)) =
            some (decide (fpCovers piece.size pos (x, y)))) := by
  have hlen : (GameBoard.new (wd, ht)).bitmap.length = wd * ht := by
    simp [GameBoard.new]
  have hwidth : (GameBoard.new (wd, ht)).width = wd := rfl
  constructor
  · rw [GameBoard.place]
    rcases hf : (fpCellList piece.size pos).foldlM
        (fun bm cell => setCell bm (cellIndex (GameBoard.new (wd, ht)).width
          cell)) (GameBoard.new (wd, ht)).bitmap with _ | bm'
    · simp only [Option.bind_eq_bind, Option.none_bind]
      rw [hwidth] at hf
      rw [placeFold_none_iff, hlen] at hf
      simpa using hf
    · simp only [Option.bind_eq_bind, Option.some_bind]
      rw [hwidth] at hf
      constructor
      · intro h; simp at h
      · rintro ⟨cell, hm, hb⟩
        have := (placeFold_none_iff wd (fpCellList piece.size pos)
          (GameBoard.new (wd, ht)).bitmap).mpr ⟨cell, hm, by rw [hlen]; exact hb⟩
        rw [this] at hf
        cases hf
  · intro hx hy
    rcases hf : (fpCellList piece.size pos).foldlM
        (fun bm cell => setCell bm (cellIndex wd cell))
        (GameBoard.new (wd, ht)).bitmap with _ | bm'
    · exfalso
      rw [placeFold_none_iff] at hf
      obtain ⟨cell, hm, hb⟩ := hf
      rw [mem_fpCellList] at hm
      obtain ⟨h1, h2, h3, h4⟩ := hm
      have := cellIndex_lt (w := wd) (h := ht) (c := cell)
        (by omega) (by omega)
      omega
    · obtain ⟨hlen', hget⟩ := placeFold_some_get wd _ _ _ hf
      refine ⟨{ GameBoard.new (wd, ht) with bitmap := bm' }, ?_, rfl, rfl,
        by rw [hlen']; exact hlen, ?_⟩
      · rw [GameBoard.place]
        rw [hwidth, hf]
        rfl
      · intro x y hxw hyh
        have hidx : cellIndex wd (x, y) < wd * ht := cellIndex_lt hxw hyh
        rw [hget]
        have hrep : (GameBoard.new (wd, ht)).bitmap.get? (cellIndex wd (x, y)) =
            some false := by
          rw [List.get?_eq_getElem?]
          simp [GameBoard.new, List.getElem?_replicate, hidx]
        rw [hrep]
        simp only [Option.map_some', Option.some.injEq, Bool.false_or]
        rcases hcov : decide (fpCovers piece.size pos (x, y)) with _ | _
        · rw [List.any_eq_false]
          intro cell hm
          rw [mem_fpCellList] at hm
          have hcell1 : cell.1 < wd := by
            obtain ⟨a, b, c, d⟩ := hm; omega
          intro hbeq
          rw [Nat.beq_eq_true_eq] at hbeq
          have := cellIndex_inj (w := wd) hcell1 hxw hbeq
          rw [this] at hm
          rw [decide_eq_false_iff_not] at hcov
          exact hcov hm
        · rw [List.any_eq_true]
          rw [decide_eq_true_eq] at hcov
          exact ⟨(x, y), mem_fpCellList.mpr hcov, by simp⟩

/-- A 1×1 piece used by the C6 counterexample. -/
def pieceOne : PieceSpecification :=
  { size := (1, 1), position := (0, 0), moves := (false, false) }

/-- C6 counterexample: on a 3×2 board, placing a 1×1 piece at `x = 3`
extends past the right edge, yet `place` does not abort: the linear index
`3 + 0*3 = 3` is in range and the write lands on cell `(0, 1)` of the next
row. -/
theorem C6_place_counterexample :
    (3 : Nat) < 3 + pieceOne.size.1 ∧
    (GameBoard.new (3, 2)).place pieceOne (3, 0) =
      some ⟨[false, false, false, true, false, false], 3, 2⟩ := by
  decide

/-- Witness for C6 at a 1×1 piece placed at the origin of a 3×2 board. -/
theorem C6_place_spec_witness :
    ∃ b', (GameBoard.new (3, 2)).place pieceOne (0, 0) = some b' ∧
      b'.width = 3 ∧ b'.height = 2 ∧ b'.bitmap.length = 3 * 2 ∧
      ∀ x y, x < 3 → y < 2 →
        b'.bitmap.get? (cellIndex 3 (x, y)) =
          some (decide (fpCovers pieceOne.size (0, 0) (x, y))) :=
  (C6_place_spec 3 2 pieceOne (0, 0)).2 (by decide) (by decide)

/-- C3: the occupancy assertion is hard-coded to 18, not to the sum of the
piece areas.  Scenario A of the spec (a 1×1 board with one fixed 1×1
piece) is in bounds and non-overlapping with total area 1, yet the first
visit aborts the run. -/
theorem C3_assert_hardcoded_18 :
    InBounds scenarioA scenarioA.as_configuration ∧
    NonOverlap scenarioA scenarioA.as_configuration ∧
    totalArea scenarioA = 1 ∧
    generate_loop 1 (GraphGenerator.new scenarioA) = .panicked := by
  decide

/-- C4: scenario B (3×1 board, one sliding 1×1 piece) is well-formed, but
`generate` panics on the hard-coded occupancy assertion instead of
returning the 3-node, 2-edge graph. -/
theorem C4_scenarioB_panics :
    WFSpec scenarioB ∧
    generate_loop 10 (GraphGenerator.new scenarioB) = .panicked := by
  decide

/-- C10: `generate` never returns the error variant of its result type:
every failure aborts by panic instead. -/
theorem C10_generate_never_err :
    ∀ (fuel : Nat) (g : GraphGenerator), generate_loop fuel g ≠ .err := by
  intro fuel
  induction fuel with
  | zero =>
    intro g
    rcases hq : g.queue with _ | ⟨i, r⟩ <;> simp [generate_loop, hq]
  | succ n ih =>
    intro g
    rcases hq : g.queue with _ | ⟨idx, rest⟩
    · simp [generate_loop, hq]
    · simp only [generate_loop, hq]
      rcases h : GraphGenerator.visit_node { g with queue := rest } idx
        with _ | g'
      · simp
      · exact ih g'

/-! ## Board semantics: `place` folds and `buildBoard` -/

theorem place_some_of_inbounds {w h : Nat} (b : GameBoard)
    (piece : PieceSpecification) (pos : Nat × Nat)
    (hw : b.width = w) (hh : b.height = h) (hlen : b.bitmap.length = w * h)
    (hx : pos.1 + piece.size.1 ≤ w) (hy : pos.2 + piece.size.2 ≤ h) :
    ∃ b', b.place piece pos = some b' ∧
      b'.width = w ∧ b'.height = h ∧ b'.bitmap.length = w * h ∧
      ∀ x y, x < w → y < h →
        b'.bitmap.get? (cellIndex w (x, y)) =
          (b.bitmap.get? (cellIndex w (x, y))).map
            (fun old => old || decide (fpCovers piece.size pos (x, y))) := by
  rcases hf : (fpCellList piece.size pos).foldlM
      (fun bm cell => setCell bm (cellIndex w cell)) b.bitmap with _ | bm'
  · exfalso
    rw [placeFold_none_iff] at hf
    obtain ⟨cell, hm, hb⟩ := hf
    rw [mem_fpCellList] at hm
    obtain ⟨h1, h2, h3, h4⟩ := hm
    have := cellIndex_lt (w := w) (h := h) (c := cell) (by omega) (by omega)
    omega
  · obtain ⟨hlen', hget⟩ := placeFold_some_get w _ _ _ hf
    refine ⟨{ b with bitmap := bm' }, ?_, hw, hh, by rw [hlen']; exact hlen,
      ?_⟩
    · rw [GameBoard.place, hw, hf]
      rfl
    · intro x y hxw hyh
      rw [hget]
      rcases hb : b.bitmap.get? (cellIndex w (x, y)) with _ | old
      · simp
      · simp only [Option.map_some', Option.some.injEq]
        congr 1
        congr 1
        rcases hcov : decide (fpCovers piece.size pos (x, y)) with _ | _
        · rw [List.any_eq_false]
          intro cell hm
          rw [mem_fpCellList] at hm
          have hcell1 : cell.1 < w := by
            obtain ⟨a, bb, c, d⟩ := hm; omega
          intro hbeq
          rw [Nat.beq_eq_true_eq] at hbeq
          have := cellIndex_inj (w := w) hcell1 hxw hbeq
          rw [this] at hm
          rw [decide_eq_false_iff_not] at hcov
          exact hcov hm
        · rw [List.any_eq_true]
          rw [decide_eq_true_eq] at hcov
          exact ⟨(x, y), mem_fpCellList.mpr hcov, by simp⟩

theorem placeList_some {w h : Nat} (ps : List (PieceSpecification × (Nat × Nat)))
    (b : GameBoard)
    (hw : b.width = w) (hh : b.height = h) (hlen : b.bitmap.length = w * h)
    (hib : ∀ pp ∈ ps, pp.2.1 + pp.1.size.1 ≤ w ∧ pp.2.2 + pp.1.size.2 ≤ h) :
    ∃ b', ps.foldlM (fun bb pc => bb.place pc.1 pc.2) b = some b' ∧
      b'.width = w ∧ b'.height = h ∧ b'.bitmap.length = w * h ∧
      ∀ x y, x < w → y < h →
        b'.bitmap.get? (cellIndex w (x, y)) =
          (b.bitmap.get? (cellIndex w (x, y))).map
            (fun old => old ||
              ps.any fun pp => decide (fpCovers pp.1.size pp.2 (x, y))) := by
  induction ps generalizing b with
  | nil =>
    refine ⟨b, rfl, hw, hh, hlen, fun x y hxw hyh => ?_⟩
    rcases b.bitmap.get? (cellIndex w (x, y)) with _ | old <;> simp
  | cons p rest ih =>
    obtain ⟨hpx, hpy⟩ := hib p (List.mem_cons_self p rest)
    obtain ⟨b₁, hb₁, hw₁, hh₁, hlen₁, hget₁⟩ :=
      place_some_of_inbounds b p.1 p.2 hw hh hlen hpx hpy
    obtain ⟨b', hb', hw', hh', hlen', hget'⟩ := ih b₁ hw₁ hh₁ hlen₁
      (fun pp hm => hib pp (List.mem_cons_of_mem p hm))
    refine ⟨b', ?_, hw', hh', hlen', fun x y hxw hyh => ?_⟩
    · rw [List.foldlM_cons, hb₁]
      simpa using hb'
    · rw [hget' x y hxw hyh, hget₁ x y hxw hyh]
      rcases b.bitmap.get? (cellIndex w (x, y)) with _ | old
      · simp
      · simp only [Option.map_some', Option.some.injEq, List.any_cons]
        rw [Bool.or_assoc]

theorem get?_some_lt {α : Type} {l : List α} {n : Nat} {a : α}
    (h : l.get? n = some a) : n < l.length := by
  by_contra hc
  rw [List.get?_eq_getElem?, List.getElem?_eq_none (by omega)] at h
  cases h

theorem zip_mem_iff_pieceFoot {spec : GameSpecification}
    {c : GameConfiguration} (hlen : c.positions.length = spec.pieces.length)
    (cell : Nat × Nat) :
    (∃ pp ∈ spec.pieces.zip c.positions,
      fpCovers pp.1.size pp.2 cell) ↔ OccupiedIn spec c cell := by
  constructor
  · rintro ⟨pp, hm, hcov⟩
    obtain ⟨i, hi⟩ := List.get_of_mem hm
    have hz : (spec.pieces.zip c.positions).get? i.1 = some pp := by
      rw [List.get?_eq_get i.2]
      rw [hi]
    rw [List.get?_zip_eq_some] at hz
    obtain ⟨hp, hc⟩ := hz
    refine ⟨i.1, List.mem_range.mpr (get?_some_lt hp), ?_⟩
    rw [pieceFoot, hp, hc]
    exact mem_fpCellList.mpr hcov
  · rintro ⟨i, hir, hm⟩
    rw [pieceFoot] at hm
    rcases hp : spec.pieces.get? i with _ | piece <;> rw [hp] at hm
    · simp at hm
    rcases hc : c.positions.get? i with _ | pos <;> rw [hc] at hm
    · simp at hm
    refine ⟨(piece, pos), ?_, mem_fpCellList.mp hm⟩
    have hz : (spec.pieces.zip c.positions).get? i = some (piece, pos) := by
      rw [List.get?_zip_eq_some]
      exact ⟨hp, hc⟩
    exact List.get?_mem hz

theorem buildBoard_spec (spec : GameSpecification) (c : GameConfiguration)
    (hib : InBounds spec c) :
    ∃ b, buildBoard spec c = some b ∧
      b.width = spec.dimensions.1 ∧ b.height = spec.dimensions.2 ∧
      b.bitmap.length = spec.dimensions.1 * spec.dimensions.2 ∧
      ∀ x y, x < spec.dimensions.1 → y < spec.dimensions.2 →
        b.bitmap.get? (cellIndex spec.dimensions.1 (x, y)) =
          some (decide (OccupiedIn spec c (x, y))) := by
  obtain ⟨hlen, hbnd⟩ := hib
  obtain ⟨b, hb, hw, hh, hblen, hget⟩ := placeList_some
    (w := spec.dimensions.1) (h := spec.dimensions.2)
    (spec.pieces.zip c.positions) (GameBoard.new spec.dimensions)
    rfl rfl (by simp [GameBoard.new]) hbnd
  refine ⟨b, hb, hw, hh, hblen, fun x y hxw hyh => ?_⟩
  rw [hget x y hxw hyh]
  have hidx : cellIndex spec.dimensions.1 (x, y) <
      spec.dimensions.1 * spec.dimensions.2 := cellIndex_lt hxw hyh
  have hrep : (GameBoard.new spec.dimensions).bitmap.get?
      (cellIndex spec.dimensions.1 (x, y)) = some false := by
    rw [List.get?_eq_getElem?]
    simp [GameBoard.new, List.getElem?_replicate, hidx]
  rw [hrep]
  simp only [Option.map_some', Option.some.injEq, Bool.false_or]
  rw [← decide_eq_decide.mpr (zip_mem_iff_pieceFoot hlen (x, y))]
  rw [Bool.eq_iff_iff, List.any_eq_true, decide_eq_true_eq]
  constructor
  · rintro ⟨pp, hm, hd⟩
    exact ⟨pp, hm, of_decide_eq_true hd⟩
  · rintro ⟨pp, hm, hd⟩
    exact ⟨pp, hm, decide_eq_true hd⟩

/-! ## Occupied-cell counting -/

theorem fpCellList_length (size pos : Nat × Nat) :
    (fpCellList size pos).length = size.1 * size.2 := by
  simp only [fpCellList, List.length_flatMap, Function.comp_def,
    List.length_map, List.map_const']
  rw [List.length_range, List.sum_replicate]
  simp [Nat.mul_comm]

theorem fpCellList_nodup (size pos : Nat × Nat) :
    (fpCellList size pos).Nodup := by
  rw [fpCellList, List.nodup_flatMap]
  constructor
  · intro a _
    refine List.Nodup.map ?_ (List.nodup_range _)
    intro b1 b2 h
    simpa using h
  · refine (List.pairwise_lt_range _).imp ?_
    intro a a' hlt cell hm1 hm2
    simp only [List.mem_map, List.mem_range] at hm1 hm2
    obtain ⟨b1, _, he1⟩ := hm1
    obtain ⟨b2, _, he2⟩ := hm2
    rw [← he2] at he1
    have : a = a' := by
      have := congrArg Prod.fst he1
      simpa using this
    omega

theorem count_set_true (bm : List Bool) (i : Nat)
    (h : bm.get? i = some false) :
    (bm.set i true).count true = bm.count true + 1 := by
  induction bm generalizing i with
  | nil => simp at h
  | cons b rest ih =>
    cases i with
    | zero =>
      have hb : b = false := by simpa using h
      subst hb
      simp [List.count_cons]
    | succ n =>
      have hr : rest.get? n = some false := by simpa using h
      simp only [List.set]
      simp only [List.count_cons, ih n hr]
      omega

theorem placeFold_count {w : Nat} (cells : List (Nat × Nat))
    (bm : List Bool)
    (hnd : (cells.map (cellIndex w)).Nodup)
    (hfresh : ∀ cell ∈ cells, bm.get? (cellIndex w cell) = some false) :
    ∃ bm', cells.foldlM (fun bm cell => setCell bm (cellIndex w cell)) bm =
        some bm' ∧
      bm'.count true = bm.count true + cells.length := by
  induction cells generalizing bm with
  | nil => exact ⟨bm, rfl, by simp⟩
  | cons c rest ih =>
    have hc := hfresh c (List.mem_cons_self c rest)
    have hlt : cellIndex w c < bm.length := get?_some_lt hc
    have hset : setCell bm (cellIndex w c) = some (bm.set (cellIndex w c) true) := by
      simp [setCell, hlt]
    have hnd' : (rest.map (cellIndex w)).Nodup := (List.nodup_cons.mp hnd).2
    have hne : ∀ cell ∈ rest, cellIndex w cell ≠ cellIndex w c := by
      intro cell hm he
      exact (List.nodup_cons.mp hnd).1 (he ▸ List.mem_map_of_mem (cellIndex w) hm)
    have hfresh' : ∀ cell ∈ rest,
        (bm.set (cellIndex w c) true).get? (cellIndex w cell) = some false := by
      intro cell hm
      rw [List.get?_set_ne _ _ (fun he => hne cell hm he.symm)]
      exact hfresh cell (List.mem_cons_of_mem c hm)
    obtain ⟨bm', hrest, hcount⟩ := ih _ hnd' hfresh'
    refine ⟨bm', ?_, ?_⟩
    · rw [List.foldlM_cons, hset]
      simpa using hrest
    · rw [hcount, count_set_true bm _ hc]
      simp
      omega

theorem place_count {w h : Nat} (b : GameBoard) (piece : PieceSpecification)
    (pos : Nat × Nat) (hw : b.width = w)
    (hx : pos.1 + piece.size.1 ≤ w) {b' : GameBoard}
    (hfresh : ∀ cell ∈ fpCellList piece.size pos,
      b.bitmap.get? (cellIndex w cell) = some false)
    (hp : b.place piece pos = some b') :
    b'.bitmap.count true = b.bitmap.count true + piece.size.1 * piece.size.2 := by
  have hnd : ((fpCellList piece.size pos).map (cellIndex w)).Nodup := by
    refine List.Nodup.map_on ?_ (fpCellList_nodup _ _)
    intro c1 h1 c2 h2 he
    have hb1 : c1.1 < w := by
      obtain ⟨a, bb, cc, d⟩ := mem_fpCellList.mp h1; omega
    have hb2 : c2.1 < w := by
      obtain ⟨a, bb, cc, d⟩ := mem_fpCellList.mp h2; omega
    exact cellIndex_inj hb1 hb2 he
  obtain ⟨bm', hfold, hcount⟩ := placeFold_count (fpCellList piece.size pos)
    b.bitmap hnd hfresh
  rw [GameBoard.place, hw, hfold] at hp
  simp only [Option.bind_eq_bind, Option.some_bind] at hp
  cases hp
  rw [hcount, fpCellList_length]

theorem placeList_count {w h : Nat}
    (ps : List (PieceSpecification × (Nat × Nat))) (b : GameBoard)
    (hw : b.width = w) (hh : b.height = h) (hlen : b.bitmap.length = w * h)
    (hib : ∀ pp ∈ ps, pp.2.1 + pp.1.size.1 ≤ w ∧ pp.2.2 + pp.1.size.2 ≤ h)
    (hdisj : ps.Pairwise (fun p q => ∀ cell,
      ¬(fpCovers p.1.size p.2 cell ∧ fpCovers q.1.size q.2 cell)))
    (hfresh : ∀ pp ∈ ps, ∀ cell ∈ fpCellList pp.1.size pp.2,
      b.bitmap.get? (cellIndex w cell) = some false)
    {b' : GameBoard}
    (hfold : ps.foldlM (fun bb pc => bb.place pc.1 pc.2) b = some b') :
    b'.bitmap.count true =
      b.bitmap.count true + (ps.map fun pp => pp.1.size.1 * pp.1.size.2).sum := by
  induction ps generalizing b with
  | nil =>
    cases hfold
    simp
  | cons p rest ih =>
    obtain ⟨hpx, hpy⟩ := hib p (List.mem_cons_self p rest)
    obtain ⟨b₁, hb₁, hw₁, hh₁, hlen₁, hget₁⟩ :=
      place_some_of_inbounds b p.1 p.2 hw hh hlen hpx hpy
    rw [List.foldlM_cons, hb₁] at hfold
    simp only [Option.bind_eq_bind, Option.some_bind] at hfold
    have hc1 : b₁.bitmap.count true =
        b.bitmap.count true + p.1.size.1 * p.1.size.2 :=
      place_count (h := h) b p.1 p.2 hw hpx
        (hfresh p (List.mem_cons_self p rest)) hb₁
    have hdisj' := (List.pairwise_cons.mp hdisj).2
    have hheadd := (List.pairwise_cons.mp hdisj).1
    have hfresh' : ∀ pp ∈ rest, ∀ cell ∈ fpCellList pp.1.size pp.2,
        b₁.bitmap.get? (cellIndex w cell) = some false := by
      intro pp hm cell hcell
      obtain ⟨hqx, hqy⟩ := hib pp (List.mem_cons_of_mem p hm)
      have hcov := mem_fpCellList.mp hcell
      have hcx : cell.1 < w := by obtain ⟨a, bb, cc, d⟩ := hcov; omega
      have hcy : cell.2 < h := by obtain ⟨a, bb, cc, d⟩ := hcov; omega
      obtain ⟨x, y⟩ := cell
      rw [hget₁ x y hcx hcy]
      rw [hfresh pp (List.mem_cons_of_mem p hm) (x, y) hcell]
      simp only [Option.map_some', Option.some.injEq, Bool.false_or]
      rw [decide_eq_false_iff_not]
      intro hpcov
      exact hheadd pp hm (x, y) ⟨hpcov, hcov⟩
    have := ih b₁ hw₁ hh₁ hlen₁
      (fun pp hm => hib pp (List.mem_cons_of_mem p hm)) hdisj' hfresh' hfold
    rw [this, hc1]
    simp only [List.map_cons, List.sum_cons]
    omega

theorem buildBoard_count (spec : GameSpecification) (c : GameConfiguration)
    (hib : InBounds spec c) (hno : NonOverlap spec c) {b : GameBoard}
    (hb : buildBoard spec c = some b) :
    b.bitmap.count true = totalArea spec := by
  obtain ⟨hlen, hbnd⟩ := hib
  have hdisj : (spec.pieces.zip c.positions).Pairwise (fun p q => ∀ cell,
      ¬(fpCovers p.1.size p.2 cell ∧ fpCovers q.1.size q.2 cell)) := by
    rw [List.pairwise_iff_getElem]
    intro i j hi hj hij cell ⟨hci, hcj⟩
    have hzi : (spec.pieces.zip c.positions).get? i =
        some (spec.pieces.zip c.positions)[i] := by
      rw [List.get?_eq_getElem?, List.getElem?_eq_getElem hi]
    have hzj : (spec.pieces.zip c.positions).get? j =
        some (spec.pieces.zip c.positions)[j] := by
      rw [List.get?_eq_getElem?, List.getElem?_eq_getElem hj]
    rw [List.get?_zip_eq_some] at hzi hzj
    have hilt : i < spec.pieces.length := get?_some_lt hzi.1
    have hjlt : j < spec.pieces.length := get?_some_lt hzj.1
    refine hno i (List.mem_range.mpr hilt) j (List.mem_range.mpr hjlt)
      (by omega) cell ?_ ?_
    · rw [pieceFoot, hzi.1, hzi.2]
      exact mem_fpCellList.mpr hci
    · rw [pieceFoot, hzj.1, hzj.2]
      exact mem_fpCellList.mpr hcj
  have hfresh : ∀ pp ∈ spec.pieces.zip c.positions,
      ∀ cell ∈ fpCellList pp.1.size pp.2,
      (GameBoard.new spec.dimensions).bitmap.get?
        (cellIndex spec.dimensions.1 cell) = some false := by
    intro pp hm cell hcell
    obtain ⟨hqx, hqy⟩ := hbnd pp hm
    have hcov := mem_fpCellList.mp hcell
    have hcx : cell.1 < spec.dimensions.1 := by
      obtain ⟨a, bb, cc, d⟩ := hcov; omega
    have hcy : cell.2 < spec.dimensions.2 := by
      obtain ⟨a, bb, cc, d⟩ := hcov; omega
    have hidx := cellIndex_lt hcx hcy
    rw [List.get?_eq_getElem?]
    simp [GameBoard.new, List.getElem?_replicate, hidx]
  have hcnt := placeList_count (w := spec.dimensions.1)
    (h := spec.dimensions.2) (spec.pieces.zip c.positions)
    (GameBoard.new spec.dimensions) rfl rfl (by simp [GameBoard.new]) hbnd
    hdisj hfresh hb
  rw [hcnt]
  have hnew : (GameBoard.new spec.dimensions).bitmap.count true = 0 := by
    simp [GameBoard.new, List.count_replicate]
  rw [hnew, Nat.zero_add, totalArea]
  have hmap : (spec.pieces.zip c.positions).map Prod.fst = spec.pieces :=
    List.map_fst_zip _ _ (by omega)
  calc ((spec.pieces.zip c.positions).map
      fun pp => pp.1.size.1 * pp.1.size.2).sum
      = (((spec.pieces.zip c.positions).map Prod.fst).map
          fun p => p.size.1 * p.size.2).sum := by rw [List.map_map]; rfl
    _ = (spec.pieces.map fun p => p.size.1 * p.size.2).sum := by rw [hmap]

/-! ## Semantics of `is_rect_clear` -/

theorem checkCells_cons_free {b : GameBoard} {x y : Nat} {rest : List Nat}
    (h : b.bitmap.get? (cellIndex b.width (x, y)) = some false) :
    checkCells b x (y :: rest) = checkCells b x rest := by
  rw [checkCells, h]

theorem checkCells_cons_occupied {b : GameBoard} {x y : Nat}
    {rest : List Nat}
    (h : b.bitmap.get? (cellIndex b.width (x, y)) = some true) :
    checkCells b x (y :: rest) = some false := by
  rw [checkCells, h]

theorem checkCols_cons_clear {b : GameBoard} {ys : List Nat} {x : Nat}
    {rest : List Nat} (hx : x < b.width) (h : checkCells b x ys = some true) :
    checkCols b ys (x :: rest) = checkCols b ys rest := by
  rw [checkCols, if_pos hx, h]

theorem checkCols_cons_blocked {b : GameBoard} {ys : List Nat} {x : Nat}
    {rest : List Nat} (hx : x < b.width)
    (h : checkCells b x ys = some false) :
    checkCols b ys (x :: rest) = some false := by
  rw [checkCols, if_pos hx, h]

theorem checkCells_spec (b : GameBoard) (x : Nat) (ys : List Nat)
    (hys : ∀ y ∈ ys, cellIndex b.width (x, y) < b.bitmap.length) :
    checkCells b x ys = some (decide (∀ y ∈ ys,
      b.bitmap.get? (cellIndex b.width (x, y)) = some false)) := by
  induction ys with
  | nil => simp [checkCells]
  | cons y rest ih =>
    have hlt := hys y (List.mem_cons_self y rest)
    rcases hv : b.bitmap.get? (cellIndex b.width (x, y)) with _ | v
    · rw [List.get?_eq_getElem?, List.getElem?_eq_none_iff] at hv
      omega
    · rcases v with _ | _
      · rw [checkCells_cons_free hv,
          ih (fun y hm => hys y (List.mem_cons_of_mem _ hm))]
        congr 1
        rw [decide_eq_decide, List.forall_mem_cons]
        exact ⟨fun h => ⟨hv, h⟩, fun h => h.2⟩
      · rw [checkCells_cons_occupied hv]
        have hne : ¬ (∀ y' ∈ y :: rest,
            b.bitmap.get? (cellIndex b.width (x, y')) = some false) := by
          intro hall
          have := hall y (List.mem_cons_self y rest)
          rw [hv] at this
          cases this
        rw [decide_eq_false hne]

theorem checkCols_spec (b : GameBoard) (ys xs : List Nat)
    (hxs : ∀ x ∈ xs, x < b.width)
    (hidx : ∀ x ∈ xs, ∀ y ∈ ys, cellIndex b.width (x, y) < b.bitmap.length) :
    checkCols b ys xs = some (decide (∀ x ∈ xs, ∀ y ∈ ys,
      b.bitmap.get? (cellIndex b.width (x, y)) = some false)) := by
  induction xs with
  | nil => simp [checkCols]
  | cons x rest ih =>
    have hcells := checkCells_spec b x ys (hidx x (List.mem_cons_self x rest))
    rcases hd : decide (∀ y ∈ ys,
        b.bitmap.get? (cellIndex b.width (x, y)) = some false) with _ | _
    · rw [hd] at hcells
      rw [checkCols_cons_blocked (hxs x (List.mem_cons_self x rest)) hcells]
      rw [decide_eq_false_iff_not] at hd
      have hne : ¬ (∀ x' ∈ x :: rest, ∀ y ∈ ys,
          b.bitmap.get? (cellIndex b.width (x', y)) = some false) := by
        intro hall
        exact hd (hall x (List.mem_cons_self x rest))
      rw [decide_eq_false hne]
    · rw [hd] at hcells
      rw [checkCols_cons_clear (hxs x (List.mem_cons_self x rest)) hcells]
      rw [decide_eq_true_eq] at hd
      rw [ih (fun x' hm => hxs x' (List.mem_cons_of_mem _ hm))
        (fun x' hm => hidx x' (List.mem_cons_of_mem _ hm))]
      congr 1
      rw [decide_eq_decide, List.forall_mem_cons]
      exact ⟨fun h => ⟨hd, h⟩, fun h => h.2⟩

theorem forall_fpCellList_iff (size pos : Nat × Nat) (P : Nat × Nat → Prop) :
    (∀ cell ∈ fpCellList size pos, P cell) ↔
    (∀ x ∈ (List.range size.1).map (· + pos.1),
      ∀ y ∈ (List.range size.2).map (· + pos.2), P (x, y)) := by
  constructor
  · intro hall x hx y hy
    simp only [List.mem_map, List.mem_range] at hx hy
    obtain ⟨a, ha, rfl⟩ := hx
    obtain ⟨bb, hb, rfl⟩ := hy
    refine hall _ ?_
    simp only [fpCellList, List.mem_flatMap, List.mem_map, List.mem_range]
    exact ⟨a, ha, bb, hb, rfl⟩
  · intro hall cell hm
    simp only [fpCellList, List.mem_flatMap, List.mem_map, List.mem_range]
      at hm
    obtain ⟨a, ha, bb, hb, he⟩ := hm
    rw [← he]
    refine hall _ ?_ _ ?_
    · simp only [List.mem_map, List.mem_range]
      exact ⟨a, ha, rfl⟩
    · simp only [List.mem_map, List.mem_range]
      exact ⟨bb, hb, rfl⟩

theorem is_rect_clear_spec (b : GameBoard) (pos size : Nat × Nat)
    (hx : pos.1 + size.1 ≤ b.width) (hy : pos.2 + size.2 ≤ b.height)
    (hlen : b.bitmap.length = b.width * b.height) :
    b.is_rect_clear pos size = some (decide (∀ cell ∈ fpCellList size pos,
      b.bitmap.get? (cellIndex b.width cell) = some false)) := by
  rw [GameBoard.is_rect_clear]
  rw [checkCols_spec]
  · congr 1
    rw [decide_eq_decide]
    exact (forall_fpCellList_iff size pos
      (fun cell => b.bitmap.get? (cellIndex b.width cell) = some false)).symm
  · intro x hm
    simp only [List.mem_map, List.mem_range] at hm
    obtain ⟨a, ha, rfl⟩ := hm
    omega
  · intro x hxm y hym
    simp only [List.mem_map, List.mem_range] at hxm hym
    obtain ⟨a, ha, rfl⟩ := hxm
    obtain ⟨bb, hbb, rfl⟩ := hym
    rw [hlen]
    exact cellIndex_lt (by omega) (by omega)

/-! ## Characterization of the move generator -/

/-- The exact conditions under which the code emits a candidate for
direction `d`: the axis flag, the source guard, and a positive
`is_rect_clear` probe of the entered strip. -/
def codeLegal (b : GameBoard) (piece : PieceSpecification)
    (position : Nat × Nat) : Dir → Prop
  | .left =>
    piece.moves.1 = true ∧ 0 < position.1 ∧
    b.is_rect_clear (position.1 - 1, position.2) (1, piece.size.2) =
      some true
  | .right =>
    piece.moves.1 = true ∧ position.1 + piece.size.1 < b.width ∧
    b.is_rect_clear (position.1 + piece.size.1, position.2)
      (1, piece.size.2) = some true
  | .up =>
    piece.moves.2 = true ∧ 0 < position.2 ∧
    b.is_rect_clear (position.1, position.2 - 1) (piece.size.1, 1) =
      some true
  | .down =>
    piece.moves.2 = true ∧ position.2 + piece.size.2 < b.height ∧
    b.is_rect_clear (position.1, position.2 + piece.size.2)
      (piece.size.1, 1) = some true

instance (b : GameBoard) (piece : PieceSpecification)
    (position : Nat × Nat) (d : Dir) :
    Decidable (codeLegal b piece position d) :=
  match d with
  | .left => inferInstanceAs (Decidable (_ ∧ _ ∧ _))
  | .right => inferInstanceAs (Decidable (_ ∧ _ ∧ _))
  | .up => inferInstanceAs (Decidable (_ ∧ _ ∧ _))
  | .down => inferInstanceAs (Decidable (_ ∧ _ ∧ _))

/-- The candidate entry the code produces for a legal direction. -/
def moveEntry (c : GameConfiguration) (i : Nat) (d : Dir)
    (position : Nat × Nat) : Nat × Dir × GameConfiguration :=
  (i, d, ⟨c.positions.set i (dirShiftPos d position)⟩)

/-- The candidate list of one direction, as a function of its legality. -/
def dirList (b : GameBoard) (piece : PieceSpecification)
    (c : GameConfiguration) (i : Nat) (position : Nat × Nat) (d : Dir) :
    List (Nat × Dir × GameConfiguration) :=
  if codeLegal b piece position d then [moveEntry c i d position] else []

theorem dirAttempt_not {board : GameBoard} {config : GameConfiguration}
    {i : Nat} {guard : Prop} [Decidable guard] {pp ss nn : Nat × Nat}
    {d : Dir} (hg : ¬ guard) :
    dirAttempt board config i guard pp ss nn d = some [] := by
  simp [dirAttempt, hg]

theorem dirAttempt_probe {board : GameBoard} {config : GameConfiguration}
    {i : Nat} {guard : Prop} [Decidable guard] {pp ss nn : Nat × Nat}
    {d : Dir} {r : Bool} (hg : guard)
    (hr : board.is_rect_clear pp ss = some r) :
    dirAttempt board config i guard pp ss nn d =
      some (if r then [(i, d, ⟨config.positions.set i nn⟩)] else []) := by
  rcases r with _ | _ <;> simp [dirAttempt, hg, hr]

theorem attempt_left_eq {b : GameBoard} {piece : PieceSpecification}
    {c : GameConfiguration} {i : Nat} {position : Nat × Nat}
    (hbw : position.1 + piece.size.1 ≤ b.width)
    (hbh : position.2 + piece.size.2 ≤ b.height)
    (hlen : b.bitmap.length = b.width * b.height)
    (hm1 : piece.moves.1 = true) :
    dirAttempt b c i (0 < position.1) (position.1 - 1, position.2)
      (1, piece.size.2) (position.1 - 1, position.2) Dir.left =
      some (dirList b piece c i position .left) := by
  by_cases hg : 0 < position.1
  · have hr := is_rect_clear_spec b (position.1 - 1, position.2)
      (1, piece.size.2) (by simp only []; omega) (by simp only []; omega) hlen
    rw [dirAttempt_probe hg hr, dirList]
    by_cases hcl : codeLegal b piece position .left
    · rw [if_pos hcl]
      obtain ⟨-, -, hprobe⟩ := hcl
      rw [hr] at hprobe
      have := Option.some.inj hprobe
      rw [this]
      rfl
    · rw [if_neg hcl]
      by_cases hP : (∀ cell ∈ fpCellList (1, piece.size.2)
          (position.1 - 1, position.2),
          b.bitmap.get? (cellIndex b.width cell) = some false)
      · exact absurd ⟨hm1, hg, by rw [hr, decide_eq_true hP]⟩ hcl
      · rw [decide_eq_false hP]
        simp
  · rw [dirAttempt_not hg, dirList, if_neg]
    rintro ⟨-, hg', -⟩
    exact hg hg'

theorem attempt_right_eq {b : GameBoard} {piece : PieceSpecification}
    {c : GameConfiguration} {i : Nat} {position : Nat × Nat}
    (hbh : position.2 + piece.size.2 ≤ b.height)
    (hlen : b.bitmap.length = b.width * b.height)
    (hm1 : piece.moves.1 = true) :
    dirAttempt b c i (position.1 + piece.size.1 < b.width)
      (position.1 + piece.size.1, position.2) (1, piece.size.2)
      (position.1 + 1, position.2) Dir.right =
      some (dirList b piece c i position .right) := by
  by_cases hg : position.1 + piece.size.1 < b.width
  · have hr := is_rect_clear_spec b (position.1 + piece.size.1, position.2)
      (1, piece.size.2) (by simp only []; omega) (by simp only []; omega) hlen
    rw [dirAttempt_probe hg hr, dirList]
    by_cases hcl : codeLegal b piece position .right
    · rw [if_pos hcl]
      obtain ⟨-, -, hprobe⟩ := hcl
      rw [hr] at hprobe
      rw [Option.some.inj hprobe]
      rfl
    · rw [if_neg hcl]
      by_cases hP : (∀ cell ∈ fpCellList (1, piece.size.2)
          (position.1 + piece.size.1, position.2),
          b.bitmap.get? (cellIndex b.width cell) = some false)
      · exact absurd ⟨hm1, hg, by rw [hr, decide_eq_true hP]⟩ hcl
      · rw [decide_eq_false hP]
        simp
  · rw [dirAttempt_not hg, dirList, if_neg]
    rintro ⟨-, hg', -⟩
    exact hg hg'

theorem attempt_up_eq {b : GameBoard} {piece : PieceSpecification}
    {c : GameConfiguration} {i : Nat} {position : Nat × Nat}
    (hbw : position.1 + piece.size.1 ≤ b.width)
    (hbh : position.2 + piece.size.2 ≤ b.height)
    (hlen : b.bitmap.length = b.width * b.height)
    (hm2 : piece.moves.2 = true) :
    dirAttempt b c i (0 < position.2) (position.1, position.2 - 1)
      (piece.size.1, 1) (position.1, position.2 - 1) Dir.up =
      some (dirList b piece c i position .up) := by
  by_cases hg : 0 < position.2
  · have hr := is_rect_clear_spec b (position.1, position.2 - 1)
      (piece.size.1, 1) (by simp only []; omega) (by simp only []; omega) hlen
    rw [dirAttempt_probe hg hr, dirList]
    by_cases hcl : codeLegal b piece position .up
    · rw [if_pos hcl]
      obtain ⟨-, -, hprobe⟩ := hcl
      rw [hr] at hprobe
      rw [Option.some.inj hprobe]
      rfl
    · rw [if_neg hcl]
      by_cases hP : (∀ cell ∈ fpCellList (piece.size.1, 1)
          (position.1, position.2 - 1),
          b.bitmap.get? (cellIndex b.width cell) = some false)
      · exact absurd ⟨hm2, hg, by rw [hr, decide_eq_true hP]⟩ hcl
      · rw [decide_eq_false hP]
        simp
  · rw [dirAttempt_not hg, dirList, if_neg]
    rintro ⟨-, hg', -⟩
    exact hg hg'

theorem attempt_down_eq {b : GameBoard} {piece : PieceSpecification}
    {c : GameConfiguration} {i : Nat} {position : Nat × Nat}
    (hbw : position.1 + piece.size.1 ≤ b.width)
    (hlen : b.bitmap.length = b.width * b.height)
    (hm2 : piece.moves.2 = true) :
    dirAttempt b c i (position.2 + piece.size.2 < b.height)
      (position.1, position.2 + piece.size.2) (piece.size.1, 1)
      (position.1, position.2 + 1) Dir.down =
      some (dirList b piece c i position .down) := by
  by_cases hg : position.2 + piece.size.2 < b.height
  · have hr := is_rect_clear_spec b (position.1, position.2 + piece.size.2)
      (piece.size.1, 1) (by simp only []; omega) (by simp only []; omega) hlen
    rw [dirAttempt_probe hg hr, dirList]
    by_cases hcl : codeLegal b piece position .down
    · rw [if_pos hcl]
      obtain ⟨-, -, hprobe⟩ := hcl
      rw [hr] at hprobe
      rw [Option.some.inj hprobe]
      rfl
    · rw [if_neg hcl]
      by_cases hP : (∀ cell ∈ fpCellList (piece.size.1, 1)
          (position.1, position.2 + piece.size.2),
          b.bitmap.get? (cellIndex b.width cell) = some false)
      · exact absurd ⟨hm2, hg, by rw [hr, decide_eq_true hP]⟩ hcl
      · rw [decide_eq_false hP]
        simp
  · rw [dirAttempt_not hg, dirList, if_neg]
    rintro ⟨-, hg', -⟩
    exact hg hg'

theorem dirList_hflag_false {b : GameBoard} {piece : PieceSpecification}
    {c : GameConfiguration} {i : Nat} {position : Nat × Nat}
    (hm : piece.moves.1 = false) :
    dirList b piece c i position .left = [] ∧
    dirList b piece c i position .right = [] := by
  constructor <;>
    · rw [dirList, if_neg]
      rintro ⟨h1, -⟩
      rw [hm] at h1
      cases h1

theorem dirList_vflag_false {b : GameBoard} {piece : PieceSpecification}
    {c : GameConfiguration} {i : Nat} {position : Nat × Nat}
    (hm : piece.moves.2 = false) :
    dirList b piece c i position .up = [] ∧
    dirList b piece c i position .down = [] := by
  constructor <;>
    · rw [dirList, if_neg]
      rintro ⟨h1, -⟩
      rw [hm] at h1
      cases h1

theorem piece_moves_eq (spec : GameSpecification) (b : GameBoard)
    (c : GameConfiguration) (i : Nat) (piece : PieceSpecification)
    (position : Nat × Nat)
    (hp : spec.pieces.get? i = some piece)
    (hc : c.positions.get? i = some position)
    (hw : b.width = spec.dimensions.1) (hh : b.height = spec.dimensions.2)
    (hlen : b.bitmap.length = b.width * b.height)
    (hpx : position.1 + piece.size.1 ≤ spec.dimensions.1)
    (hpy : position.2 + piece.size.2 ≤ spec.dimensions.2) :
    piece_moves spec b c i = some
      ((dirList b piece c i position .left ++
        dirList b piece c i position .right) ++
       (dirList b piece c i position .up ++
        dirList b piece c i position .down)) := by
  have hbw : position.1 + piece.size.1 ≤ b.width := by rw [hw]; exact hpx
  have hbh : position.2 + piece.size.2 ≤ b.height := by rw [hh]; exact hpy
  have hH : horiz_moves b c i piece position =
      some (dirList b piece c i position .left ++
        dirList b piece c i position .right) := by
    rcases hm1 : piece.moves.1 with _ | _
    · simp only [horiz_moves, hm1, Bool.false_eq_true, if_false]
      rw [(dirList_hflag_false hm1).1, (dirList_hflag_false hm1).2]
      rfl
    · simp only [horiz_moves, hm1, if_true]
      rw [attempt_left_eq hbw hbh hlen hm1, attempt_right_eq hbh hlen hm1]
      simp
  have hV : vert_moves b c i piece position =
      some (dirList b piece c i position .up ++
        dirList b piece c i position .down) := by
    rcases hm2 : piece.moves.2 with _ | _
    · simp only [vert_moves, hm2, Bool.false_eq_true, if_false]
      rw [(dirList_vflag_false hm2).1, (dirList_vflag_false hm2).2]
      rfl
    · simp only [vert_moves, hm2, if_true]
      rw [attempt_up_eq hbw hbh hlen hm2, attempt_down_eq hbw hlen hm2]
      simp
  rw [piece_moves, hp, hc]
  show (horiz_moves b c i piece position >>= fun h =>
      vert_moves b c i piece position >>= fun v => some (h ++ v)) = _
  rw [hH, hV]
  simp

theorem mem_dirList {b : GameBoard} {piece : PieceSpecification}
    {c : GameConfiguration} {i : Nat} {position : Nat × Nat} {d : Dir}
    {e : Nat × Dir × GameConfiguration} :
    e ∈ dirList b piece c i position d ↔
      codeLegal b piece position d ∧ e = moveEntry c i d position := by
  rw [dirList]
  by_cases hP : codeLegal b piece position d <;> simp [hP]

theorem mem_piece_moves_char {b : GameBoard} {piece : PieceSpecification}
    {c : GameConfiguration} {i : Nat} {position : Nat × Nat}
    {e : Nat × Dir × GameConfiguration} :
    e ∈ ((dirList b piece c i position .left ++
          dirList b piece c i position .right) ++
         (dirList b piece c i position .up ++
          dirList b piece c i position .down)) ↔
      (e.1 = i ∧ codeLegal b piece position e.2.1 ∧
       e.2.2 = ⟨c.positions.set i (dirShiftPos e.2.1 position)⟩) := by
  obtain ⟨j, d, cfg⟩ := e
  simp only [List.mem_append, mem_dirList]
  constructor
  · rintro ((⟨hcl, he⟩ | ⟨hcl, he⟩) | (⟨hcl, he⟩ | ⟨hcl, he⟩)) <;>
      · rw [moveEntry] at he
        injection he with h1 h2
        injection h2 with h2a h2b
        subst h1
        subst h2a
        exact ⟨rfl, hcl, h2b⟩
  · rintro ⟨h1, hcl, h3⟩
    subst h1
    have he : (j, d, cfg) = moveEntry c j d position := by
      rw [moveEntry, h3]
    rcases d with _ | _ | _ | _
    · exact Or.inl (Or.inl ⟨hcl, he⟩)
    · exact Or.inl (Or.inr ⟨hcl, he⟩)
    · exact Or.inr (Or.inl ⟨hcl, he⟩)
    · exact Or.inr (Or.inr ⟨hcl, he⟩)

theorem all_moves_fold (spec : GameSpecification) (b : GameBoard)
    (c : GameConfiguration) (ns : List Nat)
    (acc : List (Nat × Dir × GameConfiguration))
    (h : ∀ n ∈ ns, ∃ ln, piece_moves spec b c n = some ln) :
    ∃ L, ns.foldlM
        (fun acc i => do pure (acc ++ (← piece_moves spec b c i))) acc =
        some L ∧
      ∀ e, e ∈ L ↔ (e ∈ acc ∨
        ∃ n ∈ ns, ∃ ln, piece_moves spec b c n = some ln ∧ e ∈ ln) := by
  induction ns generalizing acc with
  | nil => exact ⟨acc, rfl, by simp⟩
  | cons n rest ih =>
    obtain ⟨ln, hln⟩ := h n (List.mem_cons_self n rest)
    obtain ⟨L, hL, hc⟩ := ih (acc ++ ln)
      (fun m hm => h m (List.mem_cons_of_mem n hm))
    refine ⟨L, ?_, fun e => ?_⟩
    · rw [List.foldlM_cons, hln]
      simpa using hL
    · rw [hc e]
      constructor
      · rintro (hacc | hrest)
        · rcases List.mem_append.mp hacc with ha | hl
          · exact Or.inl ha
          · exact Or.inr ⟨n, List.mem_cons_self n rest, ln, hln, hl⟩
        · obtain ⟨m, hm, lm, hlm, hel⟩ := hrest
          exact Or.inr ⟨m, List.mem_cons_of_mem n hm, lm, hlm, hel⟩
      · rintro (ha | ⟨m, hm, lm, hlm, hel⟩)
        · exact Or.inl (List.mem_append.mpr (Or.inl ha))
        · rcases List.mem_cons.mp hm with rfl | hm'
          · rw [hln] at hlm
            cases hlm
            exact Or.inl (List.mem_append.mpr (Or.inr hel))
          · exact Or.inr ⟨m, hm', lm, hlm, hel⟩

theorem inBounds_at {spec : GameSpecification} {c : GameConfiguration}
    (hib : InBounds spec c) {i : Nat} {piece : PieceSpecification}
    {position : Nat × Nat} (hp : spec.pieces.get? i = some piece)
    (hc : c.positions.get? i = some position) :
    position.1 + piece.size.1 ≤ spec.dimensions.1 ∧
    position.2 + piece.size.2 ≤ spec.dimensions.2 := by
  refine hib.2 (piece, position) ?_
  have hz : (spec.pieces.zip c.positions).get? i = some (piece, position) := by
    rw [List.get?_zip_eq_some]
    exact ⟨hp, hc⟩
  exact List.get?_mem hz

theorem all_moves_spec (spec : GameSpecification) (b : GameBoard)
    (c : GameConfiguration)
    (hw : b.width = spec.dimensions.1) (hh : b.height = spec.dimensions.2)
    (hlen : b.bitmap.length = b.width * b.height)
    (hib : InBounds spec c) :
    ∃ L, all_moves spec b c = some L ∧
      ∀ j d e, ((j, d, e) ∈ L ↔ ∃ piece position,
        spec.pieces.get? j = some piece ∧ c.positions.get? j = some position ∧
        codeLegal b piece position d ∧
        e = ⟨c.positions.set j (dirShiftPos d position)⟩) := by
  have hpm : ∀ n ∈ List.range spec.pieces.length,
      ∃ ln, piece_moves spec b c n = some ln := by
    intro n hn
    rw [List.mem_range] at hn
    rcases hpn : spec.pieces.get? n with _ | piece
    · rw [List.get?_eq_getElem?, List.getElem?_eq_none_iff] at hpn
      omega
    rcases hcn : c.positions.get? n with _ | position
    · rw [List.get?_eq_getElem?, List.getElem?_eq_none_iff] at hcn
      have hleq := hib.1
      omega
    obtain ⟨hpx, hpy⟩ := inBounds_at hib hpn hcn
    exact ⟨_, piece_moves_eq spec b c n piece position hpn hcn hw hh hlen
      hpx hpy⟩
  obtain ⟨L, hL, hchar⟩ := all_moves_fold spec b c
    (List.range spec.pieces.length) [] hpm
  refine ⟨L, hL, fun j d e => ?_⟩
  rw [hchar (j, d, e)]
  simp only [List.not_mem_nil, false_or]
  constructor
  · rintro ⟨n, hn, ln, hln, hel⟩
    rw [List.mem_range] at hn
    rcases hpn : spec.pieces.get? n with _ | piece
    · rw [List.get?_eq_getElem?, List.getElem?_eq_none_iff] at hpn
      omega
    rcases hcn : c.positions.get? n with _ | position
    · rw [List.get?_eq_getElem?, List.getElem?_eq_none_iff] at hcn
      have hleq := hib.1
      omega
    obtain ⟨hpx, hpy⟩ := inBounds_at hib hpn hcn
    rw [piece_moves_eq spec b c n piece position hpn hcn hw hh hlen hpx hpy]
      at hln
    cases hln
    obtain ⟨h1, hcl, h3⟩ := mem_piece_moves_char.mp hel
    have h1' : j = n := h1
    subst h1'
    exact ⟨piece, position, hpn, hcn, hcl, h3⟩
  · rintro ⟨piece, position, hpn, hcn, hcl, h3⟩
    have hj : j < spec.pieces.length := get?_some_lt hpn
    obtain ⟨hpx, hpy⟩ := inBounds_at hib hpn hcn
    refine ⟨j, List.mem_range.mpr hj, _,
      piece_moves_eq spec b c j piece position hpn hcn hw hh hlen hpx hpy,
      ?_⟩
    rw [mem_piece_moves_char]
    exact ⟨rfl, hcl, h3⟩

/-! ## The move generator agrees with the spec-level legality -/

theorem codeLegal_iff_dirLegal (spec : GameSpecification)
    (c : GameConfiguration) {b : GameBoard} (piece : PieceSpecification)
    (position : Nat × Nat) (d : Dir) (hib : InBounds spec c)
    (hpx : position.1 + piece.size.1 ≤ spec.dimensions.1)
    (hpy : position.2 + piece.size.2 ≤ spec.dimensions.2)
    (hb : buildBoard spec c = some b) :
    codeLegal b piece position d ↔ dirLegal spec c piece position d := by
  obtain ⟨b₀, hb₀, hw, hh, hblen, hget⟩ := buildBoard_spec spec c hib
  rw [hb] at hb₀
  cases hb₀
  have hlen' : b.bitmap.length = b.width * b.height := by
    rw [hw, hh]; exact hblen
  have hcell : ∀ sz ps : Nat × Nat, ps.1 + sz.1 ≤ spec.dimensions.1 →
      ps.2 + sz.2 ≤ spec.dimensions.2 →
      ((∀ cell ∈ fpCellList sz ps,
        b.bitmap.get? (cellIndex b.width cell) = some false) ↔
       (∀ cell ∈ fpCellList sz ps, ¬ OccupiedIn spec c cell)) := by
    intro sz ps hx hy
    refine forall₂_congr fun cell hm => ?_
    obtain ⟨h1, h2, h3, h4⟩ := mem_fpCellList.mp hm
    have hcx : cell.1 < spec.dimensions.1 := by omega
    have hcy : cell.2 < spec.dimensions.2 := by omega
    have hg := hget cell.1 cell.2 hcx hcy
    rw [hw]
    have hcp : (cell.1, cell.2) = cell := rfl
    rw [hcp] at hg
    rw [hg]
    constructor
    · intro hfalse
      have := Option.some.inj hfalse
      rwa [decide_eq_false_iff_not] at this
    · intro hocc
      rw [decide_eq_false hocc]
  rcases d with _ | _ | _ | _
  · constructor
    · rintro ⟨hm, hg, hprobe⟩
      refine ⟨hm, hg, by omega, by omega, ?_⟩
      rw [is_rect_clear_spec b _ _ (by simp only []; omega)
        (by simp only []; omega) hlen'] at hprobe
      have := Option.some.inj hprobe
      rw [decide_eq_true_eq] at this
      exact (hcell (1, piece.size.2) (position.1 - 1, position.2)
        (by simp only []; omega) (by simp only []; omega)).mp this
    · rintro ⟨hm, hg, hb1, hb2, hclear⟩
      refine ⟨hm, hg, ?_⟩
      rw [is_rect_clear_spec b _ _ (by simp only []; omega)
        (by simp only []; omega) hlen']
      rw [decide_eq_true ((hcell (1, piece.size.2)
        (position.1 - 1, position.2) (by simp only []; omega)
        (by simp only []; omega)).mpr hclear)]
  · constructor
    · rintro ⟨hm, hg, hprobe⟩
      rw [hw] at hg
      refine ⟨hm, by omega, by omega, ?_⟩
      rw [is_rect_clear_spec b _ _ (by simp only []; rw [hw]; omega)
        (by simp only []; rw [hh]; omega) hlen'] at hprobe
      have := Option.some.inj hprobe
      rw [decide_eq_true_eq] at this
      exact (hcell (1, piece.size.2)
        (position.1 + piece.size.1, position.2)
        (by simp only []; omega) (by simp only []; omega)).mp this
    · rintro ⟨hm, hb1, hb2, hclear⟩
      refine ⟨hm, by rw [hw]; omega, ?_⟩
      rw [is_rect_clear_spec b _ _ (by simp only []; rw [hw]; omega)
        (by simp only []; rw [hh]; omega) hlen']
      rw [decide_eq_true ((hcell (1, piece.size.2)
        (position.1 + piece.size.1, position.2) (by simp only []; omega)
        (by simp only []; omega)).mpr hclear)]
  · constructor
    · rintro ⟨hm, hg, hprobe⟩
      refine ⟨hm, hg, by omega, by omega, ?_⟩
      rw [is_rect_clear_spec b _ _ (by simp only []; omega)
        (by simp only []; omega) hlen'] at hprobe
      have := Option.some.inj hprobe
      rw [decide_eq_true_eq] at this
      exact (hcell (piece.size.1, 1) (position.1, position.2 - 1)
        (by simp only []; omega) (by simp only []; omega)).mp this
    · rintro ⟨hm, hg, hb1, hb2, hclear⟩
      refine ⟨hm, hg, ?_⟩
      rw [is_rect_clear_spec b _ _ (by simp only []; omega)
        (by simp only []; omega) hlen']
      rw [decide_eq_true ((hcell (piece.size.1, 1)
        (position.1, position.2 - 1) (by simp only []; omega)
        (by simp only []; omega)).mpr hclear)]
  · constructor
    · rintro ⟨hm, hg, hprobe⟩
      rw [hh] at hg
      refine ⟨hm, by omega, by omega, ?_⟩
      rw [is_rect_clear_spec b _ _ (by simp only []; rw [hw]; omega)
        (by simp only []; rw [hh]; omega) hlen'] at hprobe
      have := Option.some.inj hprobe
      rw [decide_eq_true_eq] at this
      exact (hcell (piece.size.1, 1)
        (position.1, position.2 + piece.size.2)
        (by simp only []; omega) (by simp only []; omega)).mp this
    · rintro ⟨hm, hb1, hb2, hclear⟩
      refine ⟨hm, by rw [hh]; omega, ?_⟩
      rw [is_rect_clear_spec b _ _ (by simp only []; rw [hw]; omega)
        (by simp only []; rw [hh]; omega) hlen']
      rw [decide_eq_true ((hcell (piece.size.1, 1)
        (position.1, position.2 + piece.size.2) (by simp only []; omega)
        (by simp only []; omega)).mpr hclear)]

theorem getD_of_get? {l : List (Nat × Nat)} {i : Nat} {p : Nat × Nat}
    (h : l.get? i = some p) : l.getD i (0, 0) = p := by
  rw [List.getD_eq_getElem?_getD, ← List.get?_eq_getElem?, h]
  rfl

theorem visit_ok_eq_all_moves (spec : GameSpecification)
    (c : GameConfiguration) {b : GameBoard}
    (hb : buildBoard spec c = some b)
    (hcount : b.bitmap.count true = 18) :
    visit_ok spec c = all_moves spec b c := by
  rw [visit_ok, hb]
  simp only [Option.bind_eq_bind, Option.some_bind]
  rw [if_pos hcount]

/-- C2 (amended): on an in-bounds, non-overlapping configuration whose
total piece area is 18 (so the hard-coded occupancy assertion passes), the
candidate computation of `visit_node` (`visit_ok`) succeeds, emits a
candidate for piece `i` and direction `d` exactly when the spec-level
legality `SpecLegal` holds, and every emitted candidate is the input
configuration with that one piece shifted by one cell. -/
theorem C2_move_generator (spec : GameSpecification) (c : GameConfiguration)
    (i : Nat) (d : Dir) (hib : InBounds spec c) (hno : NonOverlap spec c)
    (h18 : totalArea spec = 18) :
    ∃ l, visit_ok spec c = some l ∧
      ((∃ e, (i, d, e) ∈ l) ↔ SpecLegal spec c i d) ∧
      (∀ e, (i, d, e) ∈ l → e = shiftConfig c i d) := by
  obtain ⟨b, hb, hw, hh, hblen, hget⟩ := buildBoard_spec spec c hib
  have hcount : b.bitmap.count true = 18 := by
    rw [buildBoard_count spec c hib hno hb, h18]
  have hlen' : b.bitmap.length = b.width * b.height := by
    rw [hw, hh]; exact hblen
  obtain ⟨L, hL, hchar⟩ := all_moves_spec spec b c hw hh hlen' hib
  refine ⟨L, by rw [visit_ok_eq_all_moves spec c hb hcount]; exact hL,
    ?_, ?_⟩
  · constructor
    · rintro ⟨e, he⟩
      obtain ⟨piece, position, hp, hc, hcl, -⟩ := (hchar i d e).mp he
      obtain ⟨hpx, hpy⟩ := inBounds_at hib hp hc
      have hdl := (codeLegal_iff_dirLegal spec c piece position d hib
        hpx hpy hb).mp hcl
      rw [SpecLegal]
      refine ⟨piece, ?_, position, ?_, hdl⟩
      · rw [hp]; simp
      · rw [hc]; simp
    · intro hsl
      rw [SpecLegal] at hsl
      obtain ⟨piece, hpm, position, hcm, hdl⟩ := hsl
      rcases hp : spec.pieces.get? i with _ | piece'
      · rw [hp] at hpm; simp at hpm
      rcases hc : c.positions.get? i with _ | position'
      · rw [hc] at hcm; simp at hcm
      rw [hp] at hpm
      rw [hc] at hcm
      simp only [Option.toList_some, List.mem_singleton] at hpm hcm
      subst hpm
      subst hcm
      obtain ⟨hpx, hpy⟩ := inBounds_at hib hp hc
      have hcl := (codeLegal_iff_dirLegal spec c piece position d hib
        hpx hpy hb).mpr hdl
      exact ⟨_, (hchar i d _).mpr ⟨piece, position, hp, hc, hcl, rfl⟩⟩
  · intro e he
    obtain ⟨piece, position, hp, hc, hcl, hdef⟩ := (hchar i d e).mp he
    rw [hdef, shiftConfig, getD_of_get? hc]

/-- C2 counterexample: scenario B's initial configuration is in bounds and
non-overlapping, and the right slide of piece 0 is legal per the spec, yet
the visit aborts on the hard-coded occupancy assertion and produces no
candidate at all. -/
theorem C2_counterexample :
    InBounds scenarioB scenarioB.as_configuration ∧
    NonOverlap scenarioB scenarioB.as_configuration ∧
    SpecLegal scenarioB scenarioB.as_configuration 0 .right ∧
    visit_ok scenarioB scenarioB.as_configuration = none := by
  decide

/-- Witness for C2 on the corridor puzzle (total area 18). -/
theorem C2_move_generator_witness :
    ∃ l, visit_ok corridorSpec corridorSpec.as_configuration = some l ∧
      ((∃ e, (0, Dir.right, e) ∈ l) ↔
        SpecLegal corridorSpec corridorSpec.as_configuration 0 .right) ∧
      (∀ e, (0, Dir.right, e) ∈ l →
        e = shiftConfig corridorSpec.as_configuration 0 .right) :=
  C2_move_generator corridorSpec corridorSpec.as_configuration 0 .right
    (by decide) (by decide) (by decide)

/-! ## Structural facts about candidates and the visit computation -/

/-- Reachability along the code's own move generator. -/
def ReachableC (spec : GameSpecification) (c : GameConfiguration) : Prop :=
  Relation.ReflTransGen (Step spec) spec.as_configuration c

theorem node_moves_of_visit_ok {spec : GameSpecification}
    {c : GameConfiguration} {l : List (Nat × Dir × GameConfiguration)}
    (h : visit_ok spec c = some l) : node_moves spec c = some l := by
  rw [visit_ok] at h
  rw [node_moves]
  rcases hb : buildBoard spec c with _ | b <;> rw [hb] at h
  · simp at h
  · simp only [Option.bind_eq_bind, Option.some_bind] at h ⊢
    by_cases hc : b.bitmap.count true = 18
    · rw [if_pos hc] at h
      exact h
    · rw [if_neg hc] at h
      cases h

theorem visit_try_eq_visit_ok (spec : GameSpecification)
    (board : GameBoard) (c : GameConfiguration)
    (hw : board.width = spec.dimensions.1)
    (hh : board.height = spec.dimensions.2)
    (hlen : board.bitmap.length = spec.dimensions.1 * spec.dimensions.2) :
    visit_try spec board c = visit_ok spec c := by
  have hclear : board.clear = GameBoard.new spec.dimensions := by
    rw [GameBoard.clear, GameBoard.new]
    obtain ⟨bm, w, h⟩ := board
    simp only [] at hw hh hlen
    simp [hw, hh, hlen]
  rw [visit_try, visit_ok, buildBoard, hclear]

theorem foldlM_moves_inv {spec : GameSpecification} {b : GameBoard}
    {c : GameConfiguration} (ns : List Nat)
    (acc : List (Nat × Dir × GameConfiguration))
    {L : List (Nat × Dir × GameConfiguration)}
    (h : ns.foldlM
      (fun acc i => do pure (acc ++ (← piece_moves spec b c i))) acc =
      some L) :
    ∀ e ∈ L, e ∈ acc ∨ ∃ n ln, piece_moves spec b c n = some ln ∧ e ∈ ln := by
  induction ns generalizing acc with
  | nil =>
    cases h
    intro e he
    exact Or.inl he
  | cons n rest ih =>
    rw [List.foldlM_cons] at h
    rcases hn : piece_moves spec b c n with _ | ln <;> rw [hn] at h
    · simp at h
    · simp only [Option.bind_eq_bind, Option.some_bind] at h
      intro e he
      rcases ih _ h e he with hacc | hrest
      · rcases List.mem_append.mp hacc with ha | hl
        · exact Or.inl ha
        · exact Or.inr ⟨n, ln, hn, hl⟩
      · exact Or.inr hrest

theorem all_moves_inv {spec : GameSpecification} {b : GameBoard}
    {c : GameConfiguration} {L : List (Nat × Dir × GameConfiguration)}
    (h : all_moves spec b c = some L) :
    ∀ e ∈ L, ∃ n ln, piece_moves spec b c n = some ln ∧ e ∈ ln := by
  intro e he
  rcases foldlM_moves_inv _ _ h e he with hacc | hr
  · simp at hacc
  · exact hr

theorem dirAttempt_mem {board : GameBoard} {config : GameConfiguration}
    {j : Nat} {guard : Prop} [Decidable guard] {pp ss nn : Nat × Nat}
    {d : Dir} {lr : List (Nat × Dir × GameConfiguration)}
    (h : dirAttempt board config j guard pp ss nn d = some lr) :
    ∀ m ∈ lr, m = (j, d, ⟨config.positions.set j nn⟩) ∧ guard := by
  rw [dirAttempt] at h
  by_cases hg : guard
  · rw [if_pos hg] at h
    rcases hpr : board.is_rect_clear pp ss with _ | r <;> rw [hpr] at h
    · cases h
    · rcases r with _ | _
      · cases h
        intro m hm
        simp at hm
      · cases h
        intro m hm
        rcases List.mem_singleton.mp hm with rfl
        exact ⟨rfl, hg⟩
  · rw [if_neg hg] at h
    cases h
    intro m hm
    simp at hm


theorem horiz_moves_mem {board : GameBoard} {config : GameConfiguration}
    {j : Nat} {piece : PieceSpecification} {position : Nat × Nat}
    {lh : List (Nat × Dir × GameConfiguration)}
    (h : horiz_moves board config j piece position = some lh) :
    ∀ m ∈ lh,
      (m = (j, Dir.left,
        ⟨config.positions.set j (position.1 - 1, position.2)⟩) ∧
        0 < position.1) ∨
      (m = (j, Dir.right,
        ⟨config.positions.set j (position.1 + 1, position.2)⟩) ∧
        position.1 + piece.size.1 < board.width) := by
  rw [horiz_moves] at h
  by_cases hm1 : piece.moves.1 = true
  · rw [if_pos hm1] at h
    rcases hml : dirAttempt board config j (0 < position.1)
        (position.1 - 1, position.2) (1, piece.size.2)
        (position.1 - 1, position.2) Dir.left with _ | ml <;> rw [hml] at h
    · simp at h
    rcases hmr : dirAttempt board config j
        (position.1 + piece.size.1 < board.width)
        (position.1 + piece.size.1, position.2) (1, piece.size.2)
        (position.1 + 1, position.2) Dir.right with _ | mr <;> rw [hmr] at h
    · simp at h
    simp only [Option.bind_eq_bind, Option.some_bind, Option.some.injEq] at h
    subst h
    intro m hm
    rcases List.mem_append.mp hm with hl | hr
    · obtain ⟨he, hg⟩ := dirAttempt_mem hml m hl
      exact Or.inl ⟨he, hg⟩
    · obtain ⟨he, hg⟩ := dirAttempt_mem hmr m hr
      exact Or.inr ⟨he, hg⟩
  · rw [if_neg hm1] at h
    cases h
    intro m hm
    simp at hm

theorem vert_moves_mem {board : GameBoard} {config : GameConfiguration}
    {j : Nat} {piece : PieceSpecification} {position : Nat × Nat}
    {lv : List (Nat × Dir × GameConfiguration)}
    (h : vert_moves board config j piece position = some lv) :
    ∀ m ∈ lv,
      (m = (j, Dir.up,
        ⟨config.positions.set j (position.1, position.2 - 1)⟩) ∧
        0 < position.2) ∨
      (m = (j, Dir.down,
        ⟨config.positions.set j (position.1, position.2 + 1)⟩) ∧
        position.2 + piece.size.2 < board.height) := by
  rw [vert_moves] at h
  by_cases hm2 : piece.moves.2 = true
  · rw [if_pos hm2] at h
    rcases hmu : dirAttempt board config j (0 < position.2)
        (position.1, position.2 - 1) (piece.size.1, 1)
        (position.1, position.2 - 1) Dir.up with _ | mu <;> rw [hmu] at h
    · simp at h
    rcases hmd : dirAttempt board config j
        (position.2 + piece.size.2 < board.height)
        (position.1, position.2 + piece.size.2) (piece.size.1, 1)
        (position.1, position.2 + 1) Dir.down with _ | md <;> rw [hmd] at h
    · simp at h
    simp only [Option.bind_eq_bind, Option.some_bind, Option.some.injEq] at h
    subst h
    intro m hm
    rcases List.mem_append.mp hm with hu | hd
    · obtain ⟨he, hg⟩ := dirAttempt_mem hmu m hu
      exact Or.inl ⟨he, hg⟩
    · obtain ⟨he, hg⟩ := dirAttempt_mem hmd m hd
      exact Or.inr ⟨he, hg⟩
  · rw [if_neg hm2] at h
    cases h
    intro m hm
    simp at hm

/-- Structure of every entry emitted by `piece_moves`, provable without
any well-formedness assumption: the entry moves piece `m.1 = j` by one
cell, the destination differs from the source, and the destination
respects the bounds enforced by the guards. -/
theorem piece_moves_entries {spec : GameSpecification} {b : GameBoard}
    {c : GameConfiguration} {j : Nat}
    {lj : List (Nat × Dir × GameConfiguration)}
    (h : piece_moves spec b c j = some lj) :
    ∀ m ∈ lj, m.1 = j ∧ ∃ position, c.positions.get? j = some position ∧
      m.2.2.positions = c.positions.set j (dirShiftPos m.2.1 position) ∧
      dirShiftPos m.2.1 position ≠ position ∧
      ((dirShiftPos m.2.1 position).1 ≤ position.1 ∨
        (dirShiftPos m.2.1 position).1 ≤ b.width) ∧
      ((dirShiftPos m.2.1 position).2 ≤ position.2 ∨
        (dirShiftPos m.2.1 position).2 ≤ b.height) := by
  rw [piece_moves] at h
  rcases hp : spec.pieces.get? j with _ | piece <;> rw [hp] at h
  · cases h
  rcases hc : c.positions.get? j with _ | position <;> rw [hc] at h
  · cases h
  change (horiz_moves b c j piece position >>= fun hh =>
    vert_moves b c j piece position >>= fun v => some (hh ++ v)) =
    some lj at h
  rcases hH : horiz_moves b c j piece position with _ | lh <;> rw [hH] at h
  · simp at h
  rcases hV : vert_moves b c j piece position with _ | lv <;> rw [hV] at h
  · simp at h
  simp only [Option.bind_eq_bind, Option.some_bind, Option.some.injEq] at h
  subst h
  obtain ⟨px, py⟩ := position
  intro m hm
  rcases List.mem_append.mp hm with hmh | hmv
  · rcases horiz_moves_mem hH m hmh with ⟨rfl, hg⟩ | ⟨rfl, hg⟩
    · refine ⟨rfl, Exists.intro (px, py) ⟨rfl, rfl, ?_, ?_, ?_⟩⟩
      · intro he
        injection he with h1 h2
        omega
      · exact Or.inl (by show px - 1 ≤ px; omega)
      · exact Or.inl (by show py ≤ py; omega)
    · refine ⟨rfl, Exists.intro (px, py) ⟨rfl, rfl, ?_, ?_, ?_⟩⟩
      · intro he
        injection he with h1 h2
        omega
      · exact Or.inr (by show px + 1 ≤ b.width; omega)
      · exact Or.inl (by show py ≤ py; omega)
  · rcases vert_moves_mem hV m hmv with ⟨rfl, hg⟩ | ⟨rfl, hg⟩
    · refine ⟨rfl, Exists.intro (px, py) ⟨rfl, rfl, ?_, ?_, ?_⟩⟩
      · intro he
        injection he with h1 h2
        omega
      · exact Or.inl (by show px ≤ px; omega)
      · exact Or.inl (by show py - 1 ≤ py; omega)
    · refine ⟨rfl, Exists.intro (px, py) ⟨rfl, rfl, ?_, ?_, ?_⟩⟩
      · intro he
        injection he with h1 h2
        omega
      · exact Or.inl (by show px ≤ px; omega)
      · exact Or.inr (by show py + 1 ≤ b.height; omega)

/-! ## The enqueue fold of `visit_node` -/

theorem BidirectionalList.push_get_index_self {T : Type} [DecidableEq T]
    (l : BidirectionalList T) (v : T) :
    (l.push v).2.get_index v = some (l.push v).1 := by
  simp [BidirectionalList.push, BidirectionalList.get_index, mapLookup]

theorem BidirectionalList.push_len {T : Type} [DecidableEq T]
    (l : BidirectionalList T) (v : T) :
    (l.push v).2.len = l.len + 1 := by
  simp [BidirectionalList.push, BidirectionalList.len]

theorem enqueue_hit {nodes : BidirectionalList GameConfiguration}
    {queue : List Nat} {edges : Finset (Nat × Nat)}
    {cfg : GameConfiguration} {idx b : Nat}
    (h : nodes.get_index cfg = some b) :
    GraphGenerator.enqueue_configuration nodes queue edges cfg idx =
    (nodes, queue, insert (min b idx, max b idx) edges) := by
  rw [GraphGenerator.enqueue_configuration, h]

theorem enqueue_miss {nodes : BidirectionalList GameConfiguration}
    {queue : List Nat} {edges : Finset (Nat × Nat)}
    {cfg : GameConfiguration} {idx : Nat}
    (h : nodes.get_index cfg = none) :
    GraphGenerator.enqueue_configuration nodes queue edges cfg idx =
    ((nodes.push cfg).2, (nodes.push cfg).1 :: queue,
      insert (min (nodes.push cfg).1 idx, max (nodes.push cfg).1 idx)
        edges) := by
  rw [GraphGenerator.enqueue_configuration, h]

/-- The post-state of folding `enqueue_configuration` over a candidate
list, relative to the pre-state. -/
structure FoldOut (nodes₀ : BidirectionalList GameConfiguration)
    (queue₀ : List Nat) (edges₀ : Finset (Nat × Nat))
    (l : List (Nat × Dir × GameConfiguration)) (idx : Nat)
    (s : BidirectionalList GameConfiguration × List Nat ×
      Finset (Nat × Nat)) : Prop where
  wf : s.1.WFb
  ext : ∃ ext, s.1.index = nodes₀.index ++ ext ∧
    ∀ cfg ∈ ext, ∃ m ∈ l, m.2.2 = cfg
  qext : ∃ qe, s.2.1 = qe ++ queue₀ ∧ qe.Nodup ∧
    (∀ a ∈ qe, nodes₀.len ≤ a ∧ a < s.1.len) ∧
    (∀ a, nodes₀.len ≤ a → a < s.1.len → a ∈ qe)
  len_eq : s.2.1.length + nodes₀.len = queue₀.length + s.1.len
  lookup_mono : ∀ v j, nodes₀.get_index v = some j → s.1.get_index v = some j
  edges_mono : edges₀ ⊆ s.2.2
  edges_new : ∀ p ∈ s.2.2, p ∈ edges₀ ∨ ∃ m ∈ l, ∃ bm,
    s.1.get_index m.2.2 = some bm ∧ p = (min bm idx, max bm idx)
  done : ∀ m ∈ l, ∃ bm, s.1.get_index m.2.2 = some bm ∧
    (min bm idx, max bm idx) ∈ s.2.2

theorem enqueue_fold_out
    (l : List (Nat × Dir × GameConfiguration)) (idx : Nat)
    (nodes₀ : BidirectionalList GameConfiguration) (queue₀ : List Nat)
    (edges₀ : Finset (Nat × Nat)) (hwf : nodes₀.WFb) :
    FoldOut nodes₀ queue₀ edges₀ l idx
      (l.foldl (fun s m =>
        GraphGenerator.enqueue_configuration s.1 s.2.1 s.2.2 m.2.2 idx)
        (nodes₀, queue₀, edges₀)) := by
  induction l generalizing nodes₀ queue₀ edges₀ with
  | nil =>
    rw [List.foldl_nil]
    refine ⟨hwf, ⟨[], by simp, by simp⟩,
      ⟨[], by simp, List.nodup_nil, by simp, ?_⟩, by simp, fun v j h => h,
      fun p hp => hp, fun p hp => Or.inl hp, by simp⟩
    intro a h1 h2
    have h2' : a < nodes₀.len := h2
    exact absurd h2' (by omega)
  | cons m rest ih =>
    rw [List.foldl_cons]
    have hred : (GraphGenerator.enqueue_configuration
        (nodes₀, queue₀, edges₀).1 (nodes₀, queue₀, edges₀).2.1
        (nodes₀, queue₀, edges₀).2.2 m.2.2 idx) =
        GraphGenerator.enqueue_configuration nodes₀ queue₀ edges₀ m.2.2
          idx := rfl
    rw [hred]
    rcases hlook : nodes₀.get_index m.2.2 with _ | b
    · -- miss: push the new configuration and queue its id
      rw [enqueue_miss hlook]
      have hwf₁ : (nodes₀.push m.2.2).2.WFb := hwf.push_of_miss hlook
      have hid := nodes₀.push_get_index_self m.2.2
      have hlen₁ := nodes₀.push_len m.2.2
      obtain ⟨wfF, extF, qextF, len_eqF, monoF, emonoF, enewF, doneF⟩ :=
        ih (nodes₀.push m.2.2).2 ((nodes₀.push m.2.2).1 :: queue₀)
          (insert (min (nodes₀.push m.2.2).1 idx
            , max (nodes₀.push m.2.2).1 idx) edges₀) hwf₁
      obtain ⟨ext₁, hext₁, hextm₁⟩ := extF
      obtain ⟨qe₁, hqe₁, hqnd₁, hqb₁, hqc₁⟩ := qextF
      have hlenF : (nodes₀.push m.2.2).2.len ≤
          (List.foldl (fun s m =>
            GraphGenerator.enqueue_configuration s.1 s.2.1 s.2.2 m.2.2 idx)
            ((nodes₀.push m.2.2).2, (nodes₀.push m.2.2).1 :: queue₀,
              insert (min (nodes₀.push m.2.2).1 idx
                , max (nodes₀.push m.2.2).1 idx) edges₀) rest).1.len := by
        rw [BidirectionalList.len, BidirectionalList.len, hext₁]
        simp
      refine ⟨wfF, ?_, ?_, ?_, ?_, ?_, ?_, ?_⟩
      · refine ⟨m.2.2 :: ext₁, ?_, ?_⟩
        · rw [hext₁]
          simp [BidirectionalList.push]
        · intro cfg hm
          rcases List.mem_cons.mp hm with rfl | hm'
          · exact ⟨m, List.mem_cons_self m rest, rfl⟩
          · obtain ⟨m', hm', he⟩ := hextm₁ cfg hm'
            exact ⟨m', List.mem_cons_of_mem m hm', he⟩
      · refine ⟨qe₁ ++ [(nodes₀.push m.2.2).1], by rw [hqe₁]; simp, ?_, ?_,
          ?_⟩
        · rw [List.nodup_append]
          refine ⟨hqnd₁, List.nodup_singleton _, ?_⟩
          intro a ha
          have := (hqb₁ a ha).1
          rw [hlen₁] at this
          simp only [List.mem_singleton]
          intro he
          rw [he] at this
          simp [BidirectionalList.push, BidirectionalList.len] at this
        · intro a ha
          rcases List.mem_append.mp ha with h1 | h1
          · have := hqb₁ a h1
            rw [hlen₁] at this
            exact ⟨by omega, this.2⟩
          · rw [List.mem_singleton] at h1
            subst h1
            constructor
            · simp [BidirectionalList.push, BidirectionalList.len]
            · exact lt_of_lt_of_le
                (by simp [BidirectionalList.push, BidirectionalList.len])
                hlenF
        · intro a h1 h2
          by_cases ha : a = (nodes₀.push m.2.2).1
          · subst ha
            exact List.mem_append.mpr (Or.inr (List.mem_singleton.mpr rfl))
          · have : (nodes₀.push m.2.2).2.len ≤ a := by
              rw [hlen₁]
              have : (nodes₀.push m.2.2).1 = nodes₀.len := rfl
              omega
            exact List.mem_append.mpr (Or.inl (hqc₁ a this h2))
      · rw [hqe₁] at len_eqF ⊢
        rw [hlen₁] at len_eqF
        simp only [List.length_append, List.length_cons] at len_eqF ⊢
        omega
      · intro v j h
        exact monoF v j
          (BidirectionalList.WFb.get_index_push_stable hlook h)
      · intro p hp
        exact emonoF (Finset.mem_insert_of_mem hp)
      · intro p hp
        rcases enewF p hp with hins | ⟨m', hm', bm, hb, he⟩
        · rcases Finset.mem_insert.mp hins with he | hold
          · refine Or.inr ⟨m, List.mem_cons_self m rest, (nodes₀.push m.2.2).1,
              monoF _ _ hid, he⟩
          · exact Or.inl hold
        · exact Or.inr ⟨m', List.mem_cons_of_mem m hm', bm, hb, he⟩
      · intro m' hm'
        rcases List.mem_cons.mp hm' with rfl | hm''
        · exact ⟨(nodes₀.push m'.2.2).1, monoF _ _ hid,
            emonoF (Finset.mem_insert_self _ _)⟩
        · exact doneF m' hm''
    · -- hit: only record the edge
      rw [enqueue_hit hlook]
      obtain ⟨wfF, extF, qextF, len_eqF, monoF, emonoF, enewF, doneF⟩ :=
        ih nodes₀ queue₀ (insert (min b idx, max b idx) edges₀) hwf
      refine ⟨wfF, ?_, qextF, len_eqF, monoF, ?_, ?_, ?_⟩
      · obtain ⟨ext₁, hext₁, hextm₁⟩ := extF
        refine ⟨ext₁, hext₁, fun cfg hm => ?_⟩
        obtain ⟨m', hm', he⟩ := hextm₁ cfg hm
        exact ⟨m', List.mem_cons_of_mem m hm', he⟩
      · intro p hp
        exact emonoF (Finset.mem_insert_of_mem hp)
      · intro p hp
        rcases enewF p hp with hins | ⟨m', hm', bm, hb, he⟩
        · rcases Finset.mem_insert.mp hins with he | hold
          · exact Or.inr ⟨m, List.mem_cons_self m rest, b,
              monoF _ _ hlook, he⟩
          · exact Or.inl hold
        · exact Or.inr ⟨m', List.mem_cons_of_mem m hm', bm, hb, he⟩
      · intro m' hm'
        rcases List.mem_cons.mp hm' with rfl | hm''
        · exact ⟨b, monoF _ _ hlook, emonoF (Finset.mem_insert_self _ _)⟩
        · exact doneF m' hm''

/-! ## The traversal invariant -/

theorem visit_ok_parts {spec : GameSpecification} {c : GameConfiguration}
    {l : List (Nat × Dir × GameConfiguration)}
    (h : visit_ok spec c = some l) :
    ∃ b, buildBoard spec c = some b ∧ b.bitmap.count true = 18 ∧
      all_moves spec b c = some l := by
  rw [visit_ok] at h
  rcases hb : buildBoard spec c with _ | b <;> rw [hb] at h
  · simp at h
  · simp only [Option.bind_eq_bind, Option.some_bind] at h
    by_cases hc : b.bitmap.count true = 18
    · rw [if_pos hc] at h
      exact ⟨b, rfl, hc, h⟩
    · rw [if_neg hc] at h
      cases h

theorem candidate_ne_source {spec : GameSpecification} {b : GameBoard}
    {c : GameConfiguration} {l : List (Nat × Dir × GameConfiguration)}
    (h : all_moves spec b c = some l) : ∀ m ∈ l, m.2.2 ≠ c := by
  intro m hm he
  obtain ⟨n, ln, hln, hmem⟩ := all_moves_inv h m hm
  obtain ⟨-, position, hcp, hset, hne, -, -⟩ := piece_moves_entries hln m hmem
  rw [he] at hset
  have hn : n < c.positions.length := get?_some_lt hcp
  have h1 : c.positions.get? n = some (dirShiftPos m.2.1 position) := by
    rw [hset]
    rw [List.get?_eq_getElem?, List.getElem?_set_eq_of_lt _ (by simpa using hn)]
  rw [hcp] at h1
  exact hne (Option.some.inj h1).symm

theorem step_of_visit_ok {spec : GameSpecification} {c : GameConfiguration}
    {l : List (Nat × Dir × GameConfiguration)}
    (h : visit_ok spec c = some l) {m : Nat × Dir × GameConfiguration}
    (hm : m ∈ l) : Step spec c m.2.2 := by
  exact ⟨m.1, m.2.1, l, node_moves_of_visit_ok h, by
    obtain ⟨j, d, cfg⟩ := m
    exact hm⟩

/-- The invariant maintained by the generate loop. -/
structure GenInv (spec : GameSpecification) (g : GraphGenerator) : Prop where
  wf : g.nodes.WFb
  spec_eq : g.specification = spec
  bw : g.board.width = spec.dimensions.1
  bh : g.board.height = spec.dimensions.2
  blen : g.board.bitmap.length = spec.dimensions.1 * spec.dimensions.2
  qvalid : ∀ a ∈ g.queue, a < g.nodes.len
  qnodup : g.queue.Nodup
  init_mem : g.nodes.index.get? 0 = some spec.as_configuration
  reach : ∀ ca ∈ g.nodes.index, ReachableC spec ca
  processed : ∀ a ca, g.nodes.index.get? a = some ca → a ∉ g.queue →
    ∃ l, visit_ok spec ca = some l ∧
      ∀ m ∈ l, ∃ bm, g.nodes.get_index m.2.2 = some bm ∧
        (min bm a, max bm a) ∈ g.edges
  edges_sound : ∀ p ∈ g.edges, ∃ x y cx cy,
    g.nodes.index.get? x = some cx ∧ g.nodes.index.get? y = some cy ∧
    x ≠ y ∧ p = (min x y, max x y) ∧ Step spec cx cy

theorem inv_init (spec : GameSpecification) :
    GenInv spec (GraphGenerator.new spec) := by
  have hwf : (GraphGenerator.new spec).nodes.WFb := by
    have := (emptyList_WFb (T := GameConfiguration)).push_of_miss
      (v := spec.as_configuration) rfl
    exact this
  refine ⟨hwf, rfl, rfl, rfl, by simp [GraphGenerator.new, GameBoard.new],
    ?_, ?_, ?_, ?_, ?_, ?_⟩
  · intro a ha
    simp only [GraphGenerator.new, List.mem_singleton] at ha
    subst ha
    simp [BidirectionalList.push, BidirectionalList.emptyList,
      BidirectionalList.len, GraphGenerator.new]
  · exact List.nodup_singleton _
  · rfl
  · intro ca hca
    simp only [GraphGenerator.new, BidirectionalList.push,
      BidirectionalList.emptyList] at hca
    simp only [List.nil_append, List.mem_singleton] at hca
    subst hca
    exact Relation.ReflTransGen.refl
  · intro a ca hget hq
    exfalso
    have ha : a = 0 := by
      have := get?_some_lt hget
      simp only [GraphGenerator.new, BidirectionalList.push,
        BidirectionalList.emptyList, List.nil_append,
        List.length_singleton] at this
      omega
    subst ha
    refine hq ?_
    show 0 ∈ [(BidirectionalList.emptyList.push spec.as_configuration).1]
    rw [List.mem_singleton]
    rfl
  · intro p hp
    simp only [GraphGenerator.new, Finset.not_mem_empty] at hp

theorem visit_node_inv {g : GraphGenerator} {idx : Nat}
    {g' : GraphGenerator} (h : g.visit_node idx = some g') :
    ∃ ca l, g.nodes.get idx = some ca ∧
      visit_try g.specification g.board ca = some l ∧
      g' = { g with
        nodes := (l.foldl (fun s m =>
          GraphGenerator.enqueue_configuration s.1 s.2.1 s.2.2 m.2.2 idx)
          (g.nodes, g.queue, g.edges)).1
        queue := (l.foldl (fun s m =>
          GraphGenerator.enqueue_configuration s.1 s.2.1 s.2.2 m.2.2 idx)
          (g.nodes, g.queue, g.edges)).2.1
        edges := (l.foldl (fun s m =>
          GraphGenerator.enqueue_configuration s.1 s.2.1 s.2.2 m.2.2 idx)
          (g.nodes, g.queue, g.edges)).2.2 } := by
  rw [GraphGenerator.visit_node] at h
  rcases hca : g.nodes.get idx with _ | ca <;> rw [hca] at h
  · simp at h
  simp only [Option.bind_eq_bind, Option.some_bind] at h
  rcases hl : visit_try g.specification g.board ca with _ | l <;>
    rw [hl] at h
  · simp at h
  simp only [Option.some_bind, Option.some.injEq] at h
  exact ⟨ca, l, rfl, hl, h.symm⟩

theorem inv_visit {spec : GameSpecification} {g : GraphGenerator} {idx : Nat}
    {rest : List Nat} {g' : GraphGenerator}
    (hinv : GenInv spec g) (hq : g.queue = idx :: rest)
    (hv : GraphGenerator.visit_node { g with queue := rest } idx = some g') :
    GenInv spec g' := by
  obtain ⟨ca, l, hca, hl, hg1⟩ := visit_node_inv hv
  have hca' : g.nodes.index.get? idx = some ca := hca
  have hl' : visit_try g.specification g.board ca = some l := hl
  rw [hinv.spec_eq] at hl'
  rw [visit_try_eq_visit_ok spec g.board ca hinv.bw hinv.bh hinv.blen] at hl'
  have hg' : g' = { g with
      nodes := (l.foldl (fun s m =>
        GraphGenerator.enqueue_configuration s.1 s.2.1 s.2.2 m.2.2 idx)
        (g.nodes, rest, g.edges)).1
      queue := (l.foldl (fun s m =>
        GraphGenerator.enqueue_configuration s.1 s.2.1 s.2.2 m.2.2 idx)
        (g.nodes, rest, g.edges)).2.1
      edges := (l.foldl (fun s m =>
        GraphGenerator.enqueue_configuration s.1 s.2.1 s.2.2 m.2.2 idx)
        (g.nodes, rest, g.edges)).2.2 } := hg1
  subst hg'
  have F := enqueue_fold_out l idx g.nodes rest g.edges hinv.wf
  obtain ⟨extl, hext, hextm⟩ := F.ext
  obtain ⟨qe, hqe, hqnodup, hqb, hqc⟩ := F.qext
  have hidxmem : idx ∈ g.queue := by rw [hq]; exact List.mem_cons_self _ _
  have hidxlt : idx < g.nodes.len := hinv.qvalid idx hidxmem
  have hlenmono : g.nodes.len ≤ (l.foldl (fun s m =>
      GraphGenerator.enqueue_configuration s.1 s.2.1 s.2.2 m.2.2 idx)
      (g.nodes, rest, g.edges)).1.len := by
    rw [BidirectionalList.len, BidirectionalList.len, hext]
    simp
  have hget_stable : ∀ a cb, g.nodes.index.get? a = some cb →
      (l.foldl (fun s m =>
        GraphGenerator.enqueue_configuration s.1 s.2.1 s.2.2 m.2.2 idx)
        (g.nodes, rest, g.edges)).1.index.get? a = some cb := by
    intro a cb hab
    rw [hext, List.get?_eq_getElem?,
      List.getElem?_append_left (get?_some_lt hab), ← List.get?_eq_getElem?]
    exact hab
  have hqfacts : idx ∉ rest ∧ rest.Nodup := by
    have := hinv.qnodup
    rw [hq, List.nodup_cons] at this
    exact this
  have hcand_step : ∀ m ∈ l, Step spec ca m.2.2 := fun m hm =>
    step_of_visit_ok hl' hm
  have hcand_ne : ∀ m ∈ l, m.2.2 ≠ ca := by
    obtain ⟨bb, -, -, ham⟩ := visit_ok_parts hl'
    exact candidate_ne_source ham
  have hrestlt : ∀ a ∈ rest, a < g.nodes.len := by
    intro a ha
    exact hinv.qvalid a (by rw [hq]; exact List.mem_cons_of_mem _ ha)
  refine ⟨F.wf, hinv.spec_eq, hinv.bw, hinv.bh, hinv.blen, ?_, ?_, ?_, ?_,
    ?_, ?_⟩
  · intro a ha
    have ha' : a ∈ qe ++ rest := by rw [← hqe]; exact ha
    rcases List.mem_append.mp ha' with h1 | h1
    · exact (hqb a h1).2
    · exact lt_of_lt_of_le (hrestlt a h1) hlenmono
  · show (l.foldl (fun s m =>
      GraphGenerator.enqueue_configuration s.1 s.2.1 s.2.2 m.2.2 idx)
      (g.nodes, rest, g.edges)).2.1.Nodup
    rw [hqe, List.nodup_append]
    refine ⟨hqnodup, hqfacts.2, ?_⟩
    intro a ha hb
    have h1 := (hqb a ha).1
    have h2 := hrestlt a hb
    omega
  · exact hget_stable 0 spec.as_configuration hinv.init_mem
  · intro cb hcb
    rw [hext] at hcb
    rcases List.mem_append.mp hcb with h1 | h1
    · exact hinv.reach cb h1
    · obtain ⟨m, hm, he⟩ := hextm cb h1
      have hreach_ca : ReachableC spec ca :=
        hinv.reach ca (List.get?_mem hca')
      exact Relation.ReflTransGen.tail hreach_ca (he ▸ hcand_step m hm)
  · intro a cb hgetb hnq
    have hnq' : a ∉ qe ++ rest := by rw [← hqe]; exact hnq
    by_cases hlt : a < g.nodes.len
    · have hold : g.nodes.index.get? a = some cb := by
        rw [hext, List.get?_eq_getElem?, List.getElem?_append_left hlt,
          ← List.get?_eq_getElem?] at hgetb
        exact hgetb
      by_cases haidx : a = idx
      · subst haidx
        have : cb = ca := by
          rw [hold] at hca'
          exact Option.some.inj hca'

        subst this
        exact ⟨l, hl', F.done⟩
      · have hnold : a ∉ g.queue := by
          rw [hq]
          intro hmem
          rcases List.mem_cons.mp hmem with h1 | h1
          · exact haidx h1
          · exact (fun h => hnq' (List.mem_append.mpr (Or.inr h))) h1
        obtain ⟨la, hla, hdone⟩ := hinv.processed a cb hold hnold
        refine ⟨la, hla, fun m hm => ?_⟩
        obtain ⟨bm, hbm, hedge⟩ := hdone m hm
        exact ⟨bm, F.lookup_mono _ _ hbm, F.edges_mono hedge⟩
    · exfalso
      have halt : a < (l.foldl (fun s m =>
          GraphGenerator.enqueue_configuration s.1 s.2.1 s.2.2 m.2.2 idx)
          (g.nodes, rest, g.edges)).1.len := by
        rw [BidirectionalList.len]
        exact get?_some_lt hgetb
      exact hnq' (List.mem_append.mpr
        (Or.inl (hqc a (by omega) halt)))
  · intro p hp
    rcases F.edges_new p hp with hold | ⟨m, hm, bm, hbm, hpe⟩
    · obtain ⟨x, y, cx, cy, hx, hy, hxy, hpc, hstep⟩ :=
        hinv.edges_sound p hold
      exact ⟨x, y, cx, cy, hget_stable _ _ hx, hget_stable _ _ hy, hxy,
        hpc, hstep⟩
    · have hby := (F.wf m.2.2 bm).mp hbm
      have hxS := hget_stable idx ca hca'
      have hne : idx ≠ bm := by
        intro he
        subst he
        rw [hby] at hxS
        exact hcand_ne m hm (Option.some.inj hxS)
      exact ⟨idx, bm, ca, m.2.2, hxS, hby, hne,
        by rw [hpe, Nat.min_comm, Nat.max_comm], hcand_step m hm⟩

theorem genReach_inv {spec : GameSpecification} {g : GraphGenerator}
    (h : GenReach spec g) : GenInv spec g := by
  induction h with
  | init => exact inv_init spec
  | step g idx rest g' _ hq hv ih => exact inv_visit ih hq hv

/-- C7: in every state the generate loop can reach, every recorded edge is
strictly canonicalized (`a < b`), and no self-loop `(a, a)` is present. -/
theorem C7_edges_canonical (spec : GameSpecification) (g : GraphGenerator)
    (h : GenReach spec g) :
    (∀ p ∈ g.edges, p.1 < p.2) ∧ ∀ a : Nat, (a, a) ∉ g.edges := by
  have hinv := genReach_inv h
  have h1 : ∀ p ∈ g.edges, p.1 < p.2 := by
    intro p hp
    obtain ⟨x, y, cx, cy, hx, hy, hxy, hpc, -⟩ := hinv.edges_sound p hp
    rw [hpc]
    show min x y < max x y
    omega
  exact ⟨h1, fun a hmem => absurd (h1 (a, a) hmem) (lt_irrefl a)⟩

/-- Witness for C7 at the initial state of the corridor puzzle. -/
theorem C7_edges_canonical_witness :
    ((3 : Nat), (3 : Nat)) ∉ (GraphGenerator.new corridorSpec).edges :=
  (C7_edges_canonical corridorSpec _ GenReach.init).2 3

theorem generate_loop_ok {spec : GameSpecification} {fuel : Nat}
    {g : GraphGenerator} {nodes : BidirectionalList GameConfiguration}
    {edges : Finset (Nat × Nat)} (hreach : GenReach spec g)
    (hok : generate_loop fuel g = .ok nodes edges) :
    ∃ gf, GenReach spec gf ∧ gf.queue = [] ∧ gf.nodes = nodes ∧
      gf.edges = edges := by
  induction fuel generalizing g with
  | zero =>
    rcases hq : g.queue with _ | ⟨i, r⟩ <;> simp only [generate_loop, hq]
      at hok
    · injection hok with h1 h2
      exact ⟨g, hreach, hq, h1, h2⟩
    · exact GenResult.noConfusion hok
  | succ n ih =>
    rcases hq : g.queue with _ | ⟨i, r⟩ <;> simp only [generate_loop, hq]
      at hok
    · injection hok with h1 h2
      exact ⟨g, hreach, hq, h1, h2⟩
    · rcases hv : GraphGenerator.visit_node { g with queue := r } i
        with _ | g₁ <;> rw [hv] at hok
      · exact GenResult.noConfusion hok
      · exact ih (GenReach.step g i r g₁ hreach hq hv) hok

/-! ## Code-level moves coincide with spec-level slides -/

theorem specLegal_elim {spec : GameSpecification} {c : GameConfiguration}
    {i : Nat} {d : Dir} :
    SpecLegal spec c i d ↔ ∃ piece position,
      spec.pieces.get? i = some piece ∧ c.positions.get? i = some position ∧
      dirLegal spec c piece position d := by
  rw [SpecLegal]
  constructor
  · rintro ⟨piece, hpm, position, hcm, hdl⟩
    rw [Option.mem_toList, Option.mem_def] at hpm hcm
    exact ⟨piece, position, hpm, hcm, hdl⟩
  · rintro ⟨piece, position, hp, hc, hdl⟩
    refine ⟨piece, ?_, position, ?_, hdl⟩ <;>
      rw [Option.mem_toList, Option.mem_def]
    · exact hp
    · exact hc

theorem moveRel_iff {spec : GameSpecification} {c : GameConfiguration}
    (hib : InBounds spec c) (i : Nat) (d : Dir) (c' : GameConfiguration) :
    MoveRel spec c i d c' ↔ ∃ piece position,
      spec.pieces.get? i = some piece ∧ c.positions.get? i = some position ∧
      dirLegal spec c piece position d ∧
      c' = ⟨c.positions.set i (dirShiftPos d position)⟩ := by
  obtain ⟨b, hb, hw, hh, hblen, -⟩ := buildBoard_spec spec c hib
  have hlen' : b.bitmap.length = b.width * b.height := by
    rw [hw, hh]; exact hblen
  obtain ⟨L, hL, hchar⟩ := all_moves_spec spec b c hw hh hlen' hib
  have hnm : node_moves spec c = some L := by
    rw [node_moves, hb]
    simpa using hL
  constructor
  · rintro ⟨l, hl, hmem⟩
    rw [hnm] at hl
    cases hl
    obtain ⟨piece, position, hp, hc, hcl, he⟩ := (hchar i d c').mp hmem
    obtain ⟨hpx, hpy⟩ := inBounds_at hib hp hc
    exact ⟨piece, position, hp, hc,
      (codeLegal_iff_dirLegal spec c piece position d hib hpx hpy hb).mp hcl,
      he⟩
  · rintro ⟨piece, position, hp, hc, hdl, he⟩
    obtain ⟨hpx, hpy⟩ := inBounds_at hib hp hc
    exact ⟨L, hnm, (hchar i d c').mpr ⟨piece, position, hp, hc,
      (codeLegal_iff_dirLegal spec c piece position d hib hpx hpy hb).mpr hdl,
      he⟩⟩

theorem step_iff_specStep {spec : GameSpecification}
    {c c' : GameConfiguration} (hib : InBounds spec c) :
    Step spec c c' ↔ SpecStep spec c c' := by
  constructor
  · rintro ⟨i, d, hrel⟩
    rw [moveRel_iff hib] at hrel
    obtain ⟨piece, position, hp, hc, hdl, he⟩ := hrel
    refine ⟨i, d, specLegal_elim.mpr ⟨piece, position, hp, hc, hdl⟩, ?_⟩
    rw [he, shiftConfig, getD_of_get? hc]
  · rintro ⟨i, d, hsl, he⟩
    obtain ⟨piece, position, hp, hc, hdl⟩ := specLegal_elim.mp hsl
    refine ⟨i, d, (moveRel_iff hib i d c').mpr
      ⟨piece, position, hp, hc, hdl, ?_⟩⟩
    rw [he, shiftConfig, getD_of_get? hc]

/-! ## Preservation of well-formedness along moves -/

/-- The strip of newly entered cells for a move of one piece. -/
def stripCells (piece : PieceSpecification) (position : Nat × Nat) :
    Dir → List (Nat × Nat)
  | .left => fpCellList (1, piece.size.2) (position.1 - 1, position.2)
  | .right => fpCellList (1, piece.size.2)
      (position.1 + piece.size.1, position.2)
  | .up => fpCellList (piece.size.1, 1) (position.1, position.2 - 1)
  | .down => fpCellList (piece.size.1, 1)
      (position.1, position.2 + piece.size.2)

theorem dirLegal_bounds {spec : GameSpecification} {c : GameConfiguration}
    {piece : PieceSpecification} {position : Nat × Nat} {d : Dir}
    (h : dirLegal spec c piece position d) :
    (dirShiftPos d position).1 + piece.size.1 ≤ spec.dimensions.1 ∧
    (dirShiftPos d position).2 + piece.size.2 ≤ spec.dimensions.2 := by
  rcases d
  · obtain ⟨-, -, h1, h2, -⟩ := h
    exact ⟨h1, h2⟩
  · obtain ⟨-, h1, h2, -⟩ := h
    exact ⟨h1, h2⟩
  · obtain ⟨-, -, h1, h2, -⟩ := h
    exact ⟨h1, h2⟩
  · obtain ⟨-, h1, h2, -⟩ := h
    exact ⟨h1, h2⟩

theorem dirLegal_strip {spec : GameSpecification} {c : GameConfiguration}
    {piece : PieceSpecification} {position : Nat × Nat} {d : Dir}
    (h : dirLegal spec c piece position d) :
    ∀ cell ∈ stripCells piece position d, ¬ OccupiedIn spec c cell := by
  rcases d
  · exact h.2.2.2.2
  · exact h.2.2.2
  · exact h.2.2.2.2
  · exact h.2.2.2

theorem shift_fp_sub (piece : PieceSpecification) (position : Nat × Nat)
    (d : Dir) :
    ∀ cell ∈ fpCellList piece.size (dirShiftPos d position),
      cell ∈ fpCellList piece.size position ∨
      cell ∈ stripCells piece position d := by
  obtain ⟨px, py⟩ := position
  intro cell hm
  obtain ⟨cx, cy⟩ := cell
  rcases d <;>
  · rw [mem_fpCellList] at hm
    simp only [stripCells, dirShiftPos] at hm ⊢
    rw [mem_fpCellList, mem_fpCellList]
    simp only [fpCovers] at hm ⊢
    omega

theorem get?_set_self {α : Type} {l : List α} {i : Nat} {q : α}
    (h : l.get? i = some q) (p : α) : (l.set i p).get? i = some p := by
  have hlt : i < l.length := get?_some_lt h
  rw [List.get?_set_eq]
  rw [h]
  rfl

theorem get?_set_ne {α : Type} (l : List α) {i j : Nat} (h : i ≠ j)
    (p : α) : (l.set i p).get? j = l.get? j := by
  rw [List.get?_eq_getElem?, List.get?_eq_getElem?, List.getElem?_set_ne h]

theorem mem_pieceFoot_iff {spec : GameSpecification} {c : GameConfiguration}
    {j : Nat} {cell : Nat × Nat} :
    cell ∈ pieceFoot spec c j ↔ ∃ piece position,
      spec.pieces.get? j = some piece ∧ c.positions.get? j = some position ∧
      cell ∈ fpCellList piece.size position := by
  rw [pieceFoot]
  rcases hp : spec.pieces.get? j with _ | piece <;>
    rcases hc : c.positions.get? j with _ | position <;> simp

theorem occupiedIn_iff {spec : GameSpecification} {c : GameConfiguration}
    {cell : Nat × Nat} :
    OccupiedIn spec c cell ↔ ∃ j piece position,
      spec.pieces.get? j = some piece ∧ c.positions.get? j = some position ∧
      cell ∈ fpCellList piece.size position := by
  rw [OccupiedIn]
  constructor
  · rintro ⟨j, -, hm⟩
    obtain ⟨piece, position, hp, hc2, hcc⟩ := mem_pieceFoot_iff.mp hm
    exact ⟨j, piece, position, hp, hc2, hcc⟩
  · rintro ⟨j, piece, position, hp, hc2, hcc⟩
    exact ⟨j, List.mem_range.mpr (get?_some_lt hp),
      mem_pieceFoot_iff.mpr ⟨piece, position, hp, hc2, hcc⟩⟩

theorem nonOverlap_iff {spec : GameSpecification} {c : GameConfiguration} :
    NonOverlap spec c ↔ ∀ i j, i ≠ j → ∀ pi posi pj posj,
      spec.pieces.get? i = some pi → c.positions.get? i = some posi →
      spec.pieces.get? j = some pj → c.positions.get? j = some posj →
      ∀ cell ∈ fpCellList pi.size posi, cell ∉ fpCellList pj.size posj := by
  constructor
  · intro h i j hne pi posi pj posj hpi hci hpj hcj cell hmi hmj
    exact h i (List.mem_range.mpr (get?_some_lt hpi)) j
      (List.mem_range.mpr (get?_some_lt hpj)) hne cell
      (mem_pieceFoot_iff.mpr ⟨pi, posi, hpi, hci, hmi⟩)
      (mem_pieceFoot_iff.mpr ⟨pj, posj, hpj, hcj, hmj⟩)
  · intro h i him j hjm hne cell hmi hmj
    obtain ⟨pi, posi, hpi, hci, hfi⟩ := mem_pieceFoot_iff.mp hmi
    obtain ⟨pj, posj, hpj, hcj, hfj⟩ := mem_pieceFoot_iff.mp hmj
    exact h i j hne pi posi pj posj hpi hci hpj hcj cell hfi hfj

theorem inBounds_of_index {spec : GameSpecification} {c : GameConfiguration}
    (hlen : c.positions.length = spec.pieces.length)
    (h : ∀ j piece position, spec.pieces.get? j = some piece →
      c.positions.get? j = some position →
      position.1 + piece.size.1 ≤ spec.dimensions.1 ∧
      position.2 + piece.size.2 ≤ spec.dimensions.2) :
    InBounds spec c := by
  refine ⟨hlen, fun pp hm => ?_⟩
  obtain ⟨n, hn⟩ := List.get_of_mem hm
  have hz : (spec.pieces.zip c.positions).get? n.1 = some pp := by
    rw [List.get?_eq_get n.2]
    exact congrArg some hn
  rw [List.get?_zip_eq_some] at hz
  exact h n.1 pp.1 pp.2 hz.1 hz.2

theorem moveRel_preserves {spec : GameSpecification} {c : GameConfiguration}
    {i : Nat} {d : Dir} {c' : GameConfiguration}
    (hib : InBounds spec c) (hno : NonOverlap spec c)
    (hrel : MoveRel spec c i d c') :
    InBounds spec c' ∧ NonOverlap spec c' := by
  rw [moveRel_iff hib] at hrel
  obtain ⟨piece, position, hp, hc, hdl, rfl⟩ := hrel
  have hself : (c.positions.set i (dirShiftPos d position)).get? i
      = some (dirShiftPos d position) := get?_set_self hc _
  have hne : ∀ j, j ≠ i →
      (c.positions.set i (dirShiftPos d position)).get? j
        = c.positions.get? j := by
    intro j hj
    exact get?_set_ne c.positions (fun he => hj he.symm) _
  constructor
  · refine inBounds_of_index ?_ ?_
    · show (c.positions.set i (dirShiftPos d position)).length
        = spec.pieces.length
      rw [List.length_set]
      exact hib.1
    · intro j pj posj hpj hcj
      have hcj' : (c.positions.set i (dirShiftPos d position)).get? j
          = some posj := hcj
      by_cases hji : j = i
      · subst hji
        rw [hself] at hcj'
        cases hcj'
        rw [hp] at hpj
        cases hpj
        exact dirLegal_bounds hdl
      · rw [hne j hji] at hcj'
        exact inBounds_at hib hpj hcj'
  · rw [nonOverlap_iff]
    intro j k hjk pj posj pk posk hpj hcj hpk hck cell hmj hmk
    have hcj' : (c.positions.set i (dirShiftPos d position)).get? j
        = some posj := hcj
    have hck' : (c.positions.set i (dirShiftPos d position)).get? k
        = some posk := hck
    by_cases hji : j = i
    · subst hji
      have hki : k ≠ j := fun he => hjk he.symm
      rw [hself] at hcj'
      cases hcj'
      rw [hp] at hpj
      cases hpj
      rw [hne k hki] at hck'
      rcases shift_fp_sub piece position d cell hmj with hold | hstrip
      · exact nonOverlap_iff.mp hno j k hjk piece position pk posk hp hc
          hpk hck' cell hold hmk
      · exact dirLegal_strip hdl cell hstrip
          (occupiedIn_iff.mpr ⟨k, pk, posk, hpk, hck', hmk⟩)
    · rw [hne j hji] at hcj'
      by_cases hki : k = i
      · subst hki
        rw [hself] at hck'
        cases hck'
        rw [hp] at hpk
        cases hpk
        rcases shift_fp_sub piece position d cell hmk with hold | hstrip
        · exact nonOverlap_iff.mp hno k j (fun he => hjk he.symm) piece
            position pj posj hp hc hpj hcj' cell hold hmj
        · exact dirLegal_strip hdl cell hstrip
            (occupiedIn_iff.mpr ⟨j, pj, posj, hpj, hcj', hmj⟩)
      · rw [hne k hki] at hck'
        exact nonOverlap_iff.mp hno j k hjk pj posj pk posk hpj hcj'
          hpk hck' cell hmj hmk

theorem reachable_wf {spec : GameSpecification} (hwf : WFSpec spec)
    {c : GameConfiguration} (h : ReachableC spec c) :
    InBounds spec c ∧ NonOverlap spec c := by
  induction h with
  | refl => exact hwf
  | tail hs hstep ih =>
    obtain ⟨i, d, hrel⟩ := hstep
    exact moveRel_preserves ih.1 ih.2 hrel

theorem reachable_iff {spec : GameSpecification} (hwf : WFSpec spec)
    (c : GameConfiguration) : ReachableC spec c ↔ SpecReachable spec c := by
  constructor
  · intro h
    induction h with
    | refl => exact Relation.ReflTransGen.refl
    | tail hs hstep ih =>
      exact Relation.ReflTransGen.tail ih
        ((step_iff_specStep (reachable_wf hwf hs).1).mp hstep)
  · intro h
    induction h with
    | refl => exact Relation.ReflTransGen.refl
    | tail hs hstep ih =>
      exact Relation.ReflTransGen.tail ih
        ((step_iff_specStep (reachable_wf hwf ih).1).mpr hstep)

/-- C1: for a well-formed specification, whenever the generate loop
returns Ok, the node table holds exactly the configurations reachable
from the initial one by legal single-piece one-cell slides (each recorded
once: the table is duplicate-free), and the edge set holds exactly the
canonicalized id pairs of configurations related by one legal slide. -/
theorem C1_generate (spec : GameSpecification) (fuel : Nat)
    (nodes : BidirectionalList GameConfiguration)
    (edges : Finset (Nat × Nat)) (hwf : WFSpec spec)
    (hok : generate_loop fuel (GraphGenerator.new spec) = .ok nodes edges) :
    (∀ c, c ∈ nodes.index ↔ SpecReachable spec c) ∧
    nodes.index.Nodup ∧
    ∀ p, p ∈ edges ↔ ∃ a b ca cb,
      nodes.index.get? a = some ca ∧ nodes.index.get? b = some cb ∧
      SpecStep spec ca cb ∧ p = (min a b, max a b) := by
  obtain ⟨gf, hre, hqe, hn, he⟩ := generate_loop_ok GenReach.init hok
  subst hn
  subst he
  have hinv := genReach_inv hre
  have hreach_mem : ∀ c, ReachableC spec c → c ∈ gf.nodes.index := by
    intro c h
    induction h with
    | refl => exact List.get?_mem hinv.init_mem
    | tail hs hstep ihm =>
      obtain ⟨⟨a, halt⟩, hn2⟩ := List.get_of_mem ihm
      have hget := List.get?_eq_get halt
      rw [hn2] at hget
      have hnq : a ∉ gf.queue := by
        rw [hqe]
        exact List.not_mem_nil a
      obtain ⟨lb, hlb, hdone⟩ := hinv.processed a _ hget hnq
      obtain ⟨i, d, l', hl', hmem'⟩ := hstep
      rw [node_moves_of_visit_ok hlb] at hl'
      injection hl' with hl2
      subst hl2
      obtain ⟨bm, hbm, -⟩ := hdone _ hmem'
      exact List.get?_mem ((hinv.wf _ bm).mp hbm)
  refine ⟨?_, hinv.wf.nodup_index, ?_⟩
  · intro c
    constructor
    · intro hm
      exact (reachable_iff hwf c).mp (hinv.reach c hm)
    · intro hs
      exact hreach_mem c ((reachable_iff hwf c).mpr hs)
  · intro p
    constructor
    · intro hp
      obtain ⟨x, y, cx, cy, hx, hy, hxy, hpc, hstep⟩ := hinv.edges_sound p hp
      refine ⟨x, y, cx, cy, hx, hy, ?_, hpc⟩
      exact (step_iff_specStep
        (reachable_wf hwf (hinv.reach cx (List.get?_mem hx))).1).mp hstep
    · rintro ⟨a, b, ca, cb, ha, hb, hss, rfl⟩
      have hstep := (step_iff_specStep
        (reachable_wf hwf (hinv.reach ca (List.get?_mem ha))).1).mpr hss
      have hnq : a ∉ gf.queue := by
        rw [hqe]
        exact List.not_mem_nil a
      obtain ⟨la, hla, hdone⟩ := hinv.processed a ca ha hnq
      obtain ⟨i, d, l', hl', hmem'⟩ := hstep
      rw [node_moves_of_visit_ok hla] at hl'
      injection hl' with hl2
      subst hl2
      obtain ⟨bm, hbm, hedge⟩ := hdone (i, d, cb) hmem'
      have hb' : mapLookup gf.nodes.inverse_index cb = some b :=
        (hinv.wf cb b).mpr hb
      have hbm' : mapLookup gf.nodes.inverse_index cb = some bm := hbm
      rw [hb'] at hbm'
      injection hbm' with hbeq
      subst hbeq
      rw [Nat.min_comm a b, Nat.max_comm a b]
      exact hedge

/-- Witness for C1 on the corridor puzzle (total area 18, two nodes). -/
theorem C1_generate_witness :
    ∃ nodes edges,
      generate_loop 10 (GraphGenerator.new corridorSpec) = .ok nodes edges ∧
      ((∀ c, c ∈ nodes.index ↔ SpecReachable corridorSpec c) ∧
        nodes.index.Nodup ∧
        ∀ p, p ∈ edges ↔ ∃ a b ca cb,
          nodes.index.get? a = some ca ∧ nodes.index.get? b = some cb ∧
          SpecStep corridorSpec ca cb ∧ p = (min a b, max a b)) := by
  obtain ⟨nodes, edges, hok⟩ : ∃ n e,
      generate_loop 10 (GraphGenerator.new corridorSpec) = .ok n e :=
    ⟨_, _, rfl⟩
  exact ⟨nodes, edges, hok,
    C1_generate corridorSpec 10 nodes edges (by decide) hok⟩

/-! ## Reverse moves -/

/-- The opposite slide direction. -/
def Dir.opp : Dir → Dir
  | .left => .right
  | .right => .left
  | .up => .down
  | .down => .up

theorem Dir.opp_opp (d : Dir) : d.opp.opp = d := by
  cases d <;> rfl

theorem set_of_get? {α : Type} {l : List α} {i : Nat} {a : α}
    (h : l.get? i = some a) : l.set i a = l := by
  apply List.ext_get?
  intro n
  by_cases hn : n = i
  · subst hn
    rw [List.get?_set_eq, h]
    rfl
  · exact get?_set_ne l (fun he => hn he.symm) a

theorem dirShift_opp {position : Nat × Nat} {d : Dir}
    (h1 : d = Dir.left → 0 < position.1)
    (h2 : d = Dir.up → 0 < position.2) :
    dirShiftPos d.opp (dirShiftPos d position) = position := by
  obtain ⟨px, py⟩ := position
  cases d with
  | left =>
    have hx := h1 rfl
    simp only [Dir.opp, dirShiftPos, Prod.mk.injEq, and_true, true_and]
    omega
  | right =>
    simp only [Dir.opp, dirShiftPos, Prod.mk.injEq, and_true, true_and]
    omega
  | up =>
    have hy := h2 rfl
    simp only [Dir.opp, dirShiftPos, Prod.mk.injEq, and_true, true_and]
    omega
  | down =>
    simp only [Dir.opp, dirShiftPos, Prod.mk.injEq, and_true, true_and]
    omega

theorem rev_strip_not_new (piece : PieceSpecification)
    (position : Nat × Nat) (d : Dir) :
    ∀ cell ∈ stripCells piece (dirShiftPos d position) d.opp,
      cell ∉ fpCellList piece.size (dirShiftPos d position) := by
  obtain ⟨px, py⟩ := position
  intro cell hm hcon
  obtain ⟨cx, cy⟩ := cell
  cases d <;>
  · simp only [stripCells, dirShiftPos, Dir.opp] at hm hcon
    rw [mem_fpCellList] at hm hcon
    simp only [fpCovers] at hm hcon
    omega

theorem rev_strip_sub (piece : PieceSpecification) (position : Nat × Nat)
    (d : Dir) (h1 : d = Dir.left → 0 < position.1)
    (h2 : d = Dir.up → 0 < position.2) :
    ∀ cell ∈ stripCells piece (dirShiftPos d position) d.opp,
      cell ∈ fpCellList piece.size position ∨
      cell ∈ stripCells piece position d := by
  obtain ⟨px, py⟩ := position
  intro cell hm
  obtain ⟨cx, cy⟩ := cell
  cases d with
  | left =>
    have hx := h1 rfl
    simp only [stripCells, dirShiftPos, Dir.opp] at hm ⊢
    rw [mem_fpCellList] at hm
    rw [mem_fpCellList, mem_fpCellList]
    simp only [fpCovers] at hm ⊢
    omega
  | right =>
    simp only [stripCells, dirShiftPos, Dir.opp] at hm ⊢
    rw [mem_fpCellList] at hm
    rw [mem_fpCellList, mem_fpCellList]
    simp only [fpCovers] at hm ⊢
    omega
  | up =>
    have hy := h2 rfl
    simp only [stripCells, dirShiftPos, Dir.opp] at hm ⊢
    rw [mem_fpCellList] at hm
    rw [mem_fpCellList, mem_fpCellList]
    simp only [fpCovers] at hm ⊢
    omega
  | down =>
    simp only [stripCells, dirShiftPos, Dir.opp] at hm ⊢
    rw [mem_fpCellList] at hm
    rw [mem_fpCellList, mem_fpCellList]
    simp only [fpCovers] at hm ⊢
    omega

theorem rev_strip_clear {spec : GameSpecification} {c : GameConfiguration}
    {i : Nat} {piece : PieceSpecification} {position : Nat × Nat} {d : Dir}
    (hno : NonOverlap spec c)
    (hp : spec.pieces.get? i = some piece)
    (hc : c.positions.get? i = some position)
    (hdl : dirLegal spec c piece position d)
    (h1 : d = Dir.left → 0 < position.1)
    (h2 : d = Dir.up → 0 < position.2) :
    ∀ cell ∈ stripCells piece (dirShiftPos d position) d.opp,
      ¬ OccupiedIn spec ⟨c.positions.set i (dirShiftPos d position)⟩
        cell := by
  intro cell hmem hocc
  obtain ⟨j, pj, posj, hpj, hcj, hfj⟩ := occupiedIn_iff.mp hocc
  have hcj' : (c.positions.set i (dirShiftPos d position)).get? j
      = some posj := hcj
  by_cases hji : j = i
  · subst hji
    rw [get?_set_self hc] at hcj'
    cases hcj'
    rw [hp] at hpj
    cases hpj
    exact rev_strip_not_new piece position d cell hmem hfj
  · rw [get?_set_ne c.positions (fun he => hji he.symm) _] at hcj'
    rcases rev_strip_sub piece position d h1 h2 cell hmem with hold | hstrip
    · exact nonOverlap_iff.mp hno i j (fun he => hji he.symm) piece position
        pj posj hp hc hpj hcj' cell hold hfj
    · exact dirLegal_strip hdl cell hstrip
        (occupiedIn_iff.mpr ⟨j, pj, posj, hpj, hcj', hfj⟩)

theorem reverse_dirLegal {spec : GameSpecification} {c : GameConfiguration}
    {i : Nat} {piece : PieceSpecification} {position : Nat × Nat} {d : Dir}
    (hib : InBounds spec c) (hno : NonOverlap spec c)
    (hp : spec.pieces.get? i = some piece)
    (hc : c.positions.get? i = some position)
    (hdl : dirLegal spec c piece position d) :
    dirLegal spec ⟨c.positions.set i (dirShiftPos d position)⟩ piece
      (dirShiftPos d position) d.opp := by
  obtain ⟨hbx, hby⟩ := inBounds_at hib hp hc
  cases d with
  | left =>
    refine ⟨hdl.1, ?_, ?_, rev_strip_clear hno hp hc hdl
      (fun _ => hdl.2.1) (fun he => Dir.noConfusion he)⟩
    · show position.1 - 1 + 1 + piece.size.1 ≤ spec.dimensions.1
      have hx := hdl.2.1
      omega
    · exact hby
  | right =>
    refine ⟨hdl.1, ?_, ?_, ?_, rev_strip_clear hno hp hc hdl
      (fun he => Dir.noConfusion he) (fun he => Dir.noConfusion he)⟩
    · show 0 < position.1 + 1
      omega
    · show position.1 + 1 - 1 + piece.size.1 ≤ spec.dimensions.1
      omega
    · exact hby
  | up =>
    refine ⟨hdl.1, ?_, ?_, rev_strip_clear hno hp hc hdl
      (fun he => Dir.noConfusion he) (fun _ => hdl.2.1)⟩
    · exact hbx
    · show position.2 - 1 + 1 + piece.size.2 ≤ spec.dimensions.2
      have hy := hdl.2.1
      omega
  | down =>
    refine ⟨hdl.1, ?_, ?_, ?_, rev_strip_clear hno hp hc hdl
      (fun he => Dir.noConfusion he) (fun he => Dir.noConfusion he)⟩
    · show 0 < position.2 + 1
      omega
    · exact hbx
    · show position.2 + 1 - 1 + piece.size.2 ≤ spec.dimensions.2
      omega

theorem moveRel_reverse {spec : GameSpecification} {c : GameConfiguration}
    {i : Nat} {d : Dir} {c' : GameConfiguration}
    (hib : InBounds spec c) (hno : NonOverlap spec c)
    (hrel : MoveRel spec c i d c') : MoveRel spec c' i d.opp c := by
  obtain ⟨hib', hno'⟩ := moveRel_preserves hib hno hrel
  rw [moveRel_iff hib] at hrel
  obtain ⟨piece, position, hp, hc, hdl, rfl⟩ := hrel
  have h1 : d = Dir.left → 0 < position.1 := by
    intro hd
    subst hd
    exact hdl.2.1
  have h2 : d = Dir.up → 0 < position.2 := by
    intro hd
    subst hd
    exact hdl.2.1
  rw [moveRel_iff hib']
  refine ⟨piece, dirShiftPos d position, hp, get?_set_self hc _,
    reverse_dirLegal hib hno hp hc hdl, ?_⟩
  show c = ⟨(c.positions.set i (dirShiftPos d position)).set i
    (dirShiftPos d.opp (dirShiftPos d position))⟩
  rw [dirShift_opp h1 h2, List.set_set, set_of_get? hc]

/-- C8: for every edge (a, b) in the final edge set there is a piece and a
direction whose one-cell slide is a legal move taking configuration a to
configuration b, and the opposite slide of the same piece legally takes
configuration b back to configuration a. -/
theorem C8_edge_symmetric (spec : GameSpecification) (fuel : Nat)
    (nodes : BidirectionalList GameConfiguration)
    (edges : Finset (Nat × Nat)) (hwf : WFSpec spec)
    (hok : generate_loop fuel (GraphGenerator.new spec) = .ok nodes edges) :
    ∀ p ∈ edges, ∃ ca cb i d,
      nodes.index.get? p.1 = some ca ∧ nodes.index.get? p.2 = some cb ∧
      MoveRel spec ca i d cb ∧ MoveRel spec cb i d.opp ca := by
  obtain ⟨gf, hre, hqe, hn, he⟩ := generate_loop_ok GenReach.init hok
  subst hn
  subst he
  have hinv := genReach_inv hre
  intro p hp
  obtain ⟨x, y, cx, cy, hx, hy, hxy, hpc, hstep⟩ := hinv.edges_sound p hp
  obtain ⟨i, d, hrel⟩ := hstep
  have hwfx := reachable_wf hwf (hinv.reach cx (List.get?_mem hx))
  have hrev := moveRel_reverse hwfx.1 hwfx.2 hrel
  subst hpc
  rcases Nat.lt_or_ge x y with hlt | hge
  · rw [Nat.min_eq_left (Nat.le_of_lt hlt), Nat.max_eq_right
      (Nat.le_of_lt hlt)]
    exact ⟨cx, cy, i, d, hx, hy, hrel, hrev⟩
  · rw [Nat.min_eq_right hge, Nat.max_eq_left hge]
    refine ⟨cy, cx, i, d.opp, hy, hx, hrev, ?_⟩
    rw [Dir.opp_opp]
    exact hrel

/-- Witness for C8 on the corridor puzzle. -/
theorem C8_edge_symmetric_witness :
    ∃ nodes edges,
      generate_loop 10 (GraphGenerator.new corridorSpec) = .ok nodes edges ∧
      ∀ p ∈ edges, ∃ ca cb i d,
        nodes.index.get? p.1 = some ca ∧ nodes.index.get? p.2 = some cb ∧
        MoveRel corridorSpec ca i d cb ∧
        MoveRel corridorSpec cb i d.opp ca := by
  obtain ⟨nodes, edges, hok⟩ : ∃ n e,
      generate_loop 10 (GraphGenerator.new corridorSpec) = .ok n e :=
    ⟨_, _, rfl⟩
  exact ⟨nodes, edges, hok,
    C8_edge_symmetric corridorSpec 10 nodes edges (by decide) hok⟩

/-! ## Termination: the reachable state space is finite -/

/-- Injective numeric encoding of a board position (coordinates up to and
including the board dimensions). -/
def encPos (spec : GameSpecification) (p : Nat × Nat) : Nat :=
  p.1 + (spec.dimensions.1 + 1) * p.2

/-- Base-`(W+1)*(H+1)` encoding of a position list. -/
def encList (spec : GameSpecification) : List (Nat × Nat) → Nat
  | [] => 0
  | p :: ps => encPos spec p +
      ((spec.dimensions.1 + 1) * (spec.dimensions.2 + 1)) * encList spec ps

theorem encPos_lt (spec : GameSpecification) {p : Nat × Nat}
    (hx : p.1 ≤ spec.dimensions.1) (hy : p.2 ≤ spec.dimensions.2) :
    encPos spec p < (spec.dimensions.1 + 1) * (spec.dimensions.2 + 1) := by
  have h := Nat.mul_le_mul_left (spec.dimensions.1 + 1) hy
  rw [encPos, Nat.mul_succ]
  omega

theorem encPos_inj (spec : GameSpecification) {p q : Nat × Nat}
    (hpx : p.1 ≤ spec.dimensions.1) (hqx : q.1 ≤ spec.dimensions.1)
    (he : encPos spec p = encPos spec q) : p = q := by
  rw [encPos, encPos] at he
  have h2 : p.2 = q.2 := by
    rcases Nat.lt_trichotomy p.2 q.2 with hlt | heq | hgt
    · have := Nat.mul_le_mul_left (spec.dimensions.1 + 1)
        (Nat.succ_le_of_lt hlt)
      rw [Nat.mul_succ] at this
      omega
    · exact heq
    · have := Nat.mul_le_mul_left (spec.dimensions.1 + 1)
        (Nat.succ_le_of_lt hgt)
      rw [Nat.mul_succ] at this
      omega
  have h1 : p.1 = q.1 := by
    rw [h2] at he
    omega
  exact Prod.ext h1 h2

theorem encList_lt (spec : GameSpecification) :
    ∀ l : List (Nat × Nat),
      (∀ p ∈ l, p.1 ≤ spec.dimensions.1 ∧ p.2 ≤ spec.dimensions.2) →
      encList spec l <
        ((spec.dimensions.1 + 1) * (spec.dimensions.2 + 1)) ^ l.length := by
  intro l
  induction l with
  | nil =>
    intro _
    simp [encList]
  | cons p ps ih =>
    intro hb
    have hp := hb p (List.mem_cons_self _ _)
    have hps := ih fun q hq => hb q (List.mem_cons_of_mem _ hq)
    have hplt := encPos_lt spec hp.1 hp.2
    rw [encList, List.length_cons, pow_succ, Nat.mul_comm
      (((spec.dimensions.1 + 1) * (spec.dimensions.2 + 1)) ^ ps.length)]
    have hm := Nat.mul_le_mul_left
      ((spec.dimensions.1 + 1) * (spec.dimensions.2 + 1))
      (Nat.succ_le_of_lt hps)
    rw [Nat.mul_succ] at hm
    omega

theorem encList_inj (spec : GameSpecification) :
    ∀ l₁ l₂ : List (Nat × Nat), l₁.length = l₂.length →
      (∀ p ∈ l₁, p.1 ≤ spec.dimensions.1 ∧ p.2 ≤ spec.dimensions.2) →
      (∀ p ∈ l₂, p.1 ≤ spec.dimensions.1 ∧ p.2 ≤ spec.dimensions.2) →
      encList spec l₁ = encList spec l₂ → l₁ = l₂ := by
  intro l₁
  induction l₁ with
  | nil =>
    intro l₂ hlen _ _ _
    cases l₂ with
    | nil => rfl
    | cons q qs => exact absurd hlen (by simp)
  | cons p ps ih =>
    intro l₂ hlen hb1 hb2 he
    cases l₂ with
    | nil => exact absurd hlen (by simp)
    | cons q qs =>
      have hp := hb1 p (List.mem_cons_self _ _)
      have hq := hb2 q (List.mem_cons_self _ _)
      have hplt := encPos_lt spec hp.1 hp.2
      have hqlt := encPos_lt spec hq.1 hq.2
      rw [encList, encList] at he
      have htail : encList spec ps = encList spec qs := by
        rcases Nat.lt_trichotomy (encList spec ps) (encList spec qs)
          with hlt | heq | hgt
        · have := Nat.mul_le_mul_left
            ((spec.dimensions.1 + 1) * (spec.dimensions.2 + 1))
            (Nat.succ_le_of_lt hlt)
          rw [Nat.mul_succ] at this
          omega
        · exact heq
        · have := Nat.mul_le_mul_left
            ((spec.dimensions.1 + 1) * (spec.dimensions.2 + 1))
            (Nat.succ_le_of_lt hgt)
          rw [Nat.mul_succ] at this
          omega
      have hhead : p = q := by
        apply encPos_inj spec hp.1 hq.1
        rw [htail] at he
        omega
      rw [hhead, ih qs (by simpa using hlen)
        (fun r hr => hb1 r (List.mem_cons_of_mem _ hr))
        (fun r hr => hb2 r (List.mem_cons_of_mem _ hr)) htail]

theorem inBounds_mem_bound {spec : GameSpecification}
    {c : GameConfiguration} (hib : InBounds spec c) :
    ∀ p ∈ c.positions,
      p.1 ≤ spec.dimensions.1 ∧ p.2 ≤ spec.dimensions.2 := by
  intro p hm
  obtain ⟨⟨j, hj⟩, hget⟩ := List.get_of_mem hm
  have hc : c.positions.get? j = some p := by
    have := List.get?_eq_get hj
    rw [hget] at this
    exact this
  have hjlt : j < spec.pieces.length := by
    rw [← hib.1]
    exact hj
  obtain ⟨piece, hpiece⟩ : ∃ piece, spec.pieces.get? j = some piece := by
    rcases hq : spec.pieces.get? j with _ | piece
    · rw [List.get?_eq_none] at hq
      omega
    · exact ⟨piece, rfl⟩
  have := inBounds_at hib hpiece hc
  omega

theorem nodes_len_bound {spec : GameSpecification} {g : GraphGenerator}
    (hwf : WFSpec spec) (hinv : GenInv spec g) :
    g.nodes.len ≤
      ((spec.dimensions.1 + 1) * (spec.dimensions.2 + 1))
        ^ spec.pieces.length := by
  have hnodup := hinv.wf.nodup_index
  have hmemwf : ∀ c ∈ g.nodes.index, InBounds spec c := by
    intro c hc
    exact (reachable_wf hwf (hinv.reach c hc)).1
  have helnodup :
      (g.nodes.index.map (fun c => encList spec c.positions)).Nodup := by
    refine List.Nodup.map_on ?_ hnodup
    intro x hx y hy he
    have hxw := hmemwf x hx
    have hyw := hmemwf y hy
    have hpos := encList_inj spec x.positions y.positions
      (by rw [hxw.1, hyw.1]) (inBounds_mem_bound hxw)
      (inBounds_mem_bound hyw) he
    cases x
    cases y
    cases hpos
    rfl
  have hel_bound : ∀ v ∈ g.nodes.index.map
      (fun c => encList spec c.positions),
      v < ((spec.dimensions.1 + 1) * (spec.dimensions.2 + 1))
        ^ spec.pieces.length := by
    intro v hv
    obtain ⟨c, hc, rfl⟩ := List.mem_map.mp hv
    have hcw := hmemwf c hc
    have := encList_lt spec c.positions (inBounds_mem_bound hcw)
    rwa [hcw.1] at this
  have hcard :
      (g.nodes.index.map (fun c => encList spec c.positions)).toFinset.card
        = g.nodes.index.length := by
    rw [List.toFinset_card_of_nodup helnodup, List.length_map]
  have hsub :
      (g.nodes.index.map (fun c => encList spec c.positions)).toFinset ⊆
        Finset.range (((spec.dimensions.1 + 1) * (spec.dimensions.2 + 1))
          ^ spec.pieces.length) := by
    intro v hv
    exact Finset.mem_range.mpr (hel_bound v (List.mem_toFinset.mp hv))
  have := Finset.card_le_card hsub
  rw [hcard, Finset.card_range] at this
  exact this

/-- Termination measure of the generate loop: unseen-state budget plus
work-list length. -/
def genMeasure (spec : GameSpecification) (g : GraphGenerator) : Nat :=
  2 * (((spec.dimensions.1 + 1) * (spec.dimensions.2 + 1))
    ^ spec.pieces.length - g.nodes.len) + g.queue.length

theorem visit_lens {g : GraphGenerator} {idx : Nat} {rest : List Nat}
    {g' : GraphGenerator} (hwfb : g.nodes.WFb)
    (hv : GraphGenerator.visit_node { g with queue := rest } idx
      = some g') :
    g'.queue.length + g.nodes.len = rest.length + g'.nodes.len ∧
    g.nodes.len ≤ g'.nodes.len := by
  obtain ⟨ca, l, hca, hl, hg1⟩ := visit_node_inv hv
  subst hg1
  have F := enqueue_fold_out l idx g.nodes rest g.edges hwfb
  constructor
  · exact F.len_eq
  · obtain ⟨extl, hext, -⟩ := F.ext
    show g.nodes.len ≤ (l.foldl (fun s m =>
      GraphGenerator.enqueue_configuration s.1 s.2.1 s.2.2 m.2.2 idx)
      (g.nodes, rest, g.edges)).1.len
    rw [BidirectionalList.len, BidirectionalList.len, hext,
      List.length_append]
    omega

theorem loop_terminates {spec : GameSpecification} (hwf : WFSpec spec) :
    ∀ fuel g, GenReach spec g → genMeasure spec g ≤ fuel →
      generate_loop fuel g ≠ .outOfFuel := by
  intro fuel
  induction fuel with
  | zero =>
    intro g hre hm
    have hq : g.queue = [] := by
      rw [genMeasure] at hm
      have : g.queue.length = 0 := by omega
      exact List.length_eq_zero.mp this
    simp [generate_loop, hq]
  | succ n ih =>
    intro g hre hm
    rcases hq : g.queue with _ | ⟨idx, rest⟩
    · simp [generate_loop, hq]
    · rcases hv : GraphGenerator.visit_node { g with queue := rest } idx
        with _ | g'
      · simp [generate_loop, hq, hv]
      · have hre' := GenReach.step g idx rest g' hre hq hv
        have hinv := genReach_inv hre
        have hinv' := genReach_inv hre'
        obtain ⟨hkey, hmono⟩ := visit_lens hinv.wf hv
        have hb' := nodes_len_bound hwf hinv'
        have hm' : genMeasure spec g' ≤ n := by
          rw [genMeasure] at hm ⊢
          rw [hq] at hm
          simp only [List.length_cons] at hm
          omega
        have hrec := ih g' hre' hm'
        simp only [generate_loop, hq, hv]
        exact hrec

theorem generate_loop_mono :
    ∀ fuel fuel' (g : GraphGenerator), fuel ≤ fuel' →
      generate_loop fuel g ≠ .outOfFuel →
      generate_loop fuel' g = generate_loop fuel g := by
  intro fuel
  induction fuel with
  | zero =>
    intro fuel' g hle hne
    rcases hq : g.queue with _ | ⟨i, r⟩
    · cases fuel' <;> simp [generate_loop, hq]
    · exfalso
      apply hne
      simp [generate_loop, hq]
  | succ n ih =>
    intro fuel' g hle hne
    rcases hq : g.queue with _ | ⟨i, r⟩
    · cases fuel' <;> simp [generate_loop, hq]
    · rcases fuel' with _ | m
      · exact absurd hle (by omega)
      · simp only [generate_loop, hq]
        rcases hv : GraphGenerator.visit_node { g with queue := r } i
          with _ | g'
        · rfl
        · have hne' : generate_loop n g' ≠ .outOfFuel := by
            have h0 := hne
            simp only [generate_loop, hq, hv] at h0
            exact h0
          exact ih m g' (by omega) hne'

/-- C5: for every specification whose initial configuration is in bounds
and non-overlapping, the generate loop terminates: some finite step budget
suffices (the artificial out-of-fuel result is avoided), and any larger
budget returns the same result.  Termination rests on the bound
`nodes_len_bound`: every interned configuration keeps its positions within
the board, so the node table can never exceed the finite number of
bounded position lists, while each iteration pops one work-list entry and
pushes entries only for newly interned configurations. -/
theorem C5_generate_terminates (spec : GameSpecification)
    (hwf : WFSpec spec) :
    ∃ fuel, generate_loop fuel (GraphGenerator.new spec) ≠ .outOfFuel ∧
      ∀ fuel', fuel ≤ fuel' →
        generate_loop fuel' (GraphGenerator.new spec) =
          generate_loop fuel (GraphGenerator.new spec) := by
  refine ⟨genMeasure spec (GraphGenerator.new spec), ?_, ?_⟩
  · exact loop_terminates hwf _ _ GenReach.init (Nat.le_refl _)
  · intro fuel' hle
    exact generate_loop_mono _ fuel' _ hle
      (loop_terminates hwf _ _ GenReach.init (Nat.le_refl _))

/-- Witness for C5 on the corridor puzzle. -/
theorem C5_generate_terminates_witness :
    ∃ fuel,
      generate_loop fuel (GraphGenerator.new corridorSpec) ≠ .outOfFuel ∧
      ∀ fuel', fuel ≤ fuel' →
        generate_loop fuel' (GraphGenerator.new corridorSpec) =
          generate_loop fuel (GraphGenerator.new corridorSpec) :=
  C5_generate_terminates corridorSpec (by decide)
